import Mathlib

/-!
# SharedPTR / WeakPtr: a shallow embedding of `Shared.h`

The control blocks of the program live on a heap (`Sys.heap`), the handle
objects (`SharedPTR`, `WeakPtr`) live in two tables that map a handle name to
the value of its `control_block` member, and the calls of the deleter and of
`delete control_block` are recorded in a chronological log.

Conventions
* a pointer is a `Nat`, `0` is `nullptr`;
* `size_t` is 64 bits wide: `++` and `--` wrap modulo `2 ^ 64`;
* every member function is a function `Sys → Option Sys`; `none` means that the
  call cannot be executed: it names a handle object that does not exist, it
  reads a control block that is not allocated (undefined behaviour in C++), or
  `new` is asked for an address that is null or in use;
* in `SharedPTR.release`, and in the public operations built on it, the call
  `del()(ptr())` is recorded in the log and has no other effect on the system:
  these are the executions in which no managed object holds a handle of the
  system (`release_without_members`). The section *Managed objects that hold
  handles* gives the `release()` that runs the destructors of the handle members
  of the managed object inside that call;
* the line printed by `~SharedPTR()` is not modelled.
-/

namespace SharedPTRModel

/-! ## Machine integers -/

/-- Number of values of a 64-bit `size_t`. -/
def SIZE_MOD : Nat := 2 ^ 64

/-- The value of `++n` for a `size_t`. -/
def incr (n : Nat) : Nat := (n + 1) % SIZE_MOD

/-- The value of `--n` for a `size_t` (wraps to `2 ^ 64 - 1` at `0`). -/
def decr (n : Nat) : Nat := (n + SIZE_MOD - 1) % SIZE_MOD

/-! ## Data model -/

/-- `std::tuple<size_t, size_t, Type*, TDeleter>`; the deleter is represented by an
identifying number. -/
structure ControlBlockTuple where
  shared_count : Nat
  weak_count : Nat
  ptr : Nat
  del : Nat
  deriving DecidableEq

/-- The value `TDeleter{}` of a default constructed deleter. -/
def TDeleter_default : Nat := 0

/-- Observable effects outside the counters. -/
inductive Event where
  /-- `new ControlBlockTuple(1, 0, object, deleter)` returned `block`. -/
  | created (block object deleter : Nat)
  /-- `del()(ptr())` was executed through the control block at `block`. -/
  | policy (block deleter object : Nat)
  /-- `delete control_block` was executed on `block`. -/
  | dealloc (block : Nat)
  deriving DecidableEq

/-- The whole system: allocated control blocks, the `control_block` member of every
`SharedPTR` and `WeakPtr` object (`none` once the object has been destroyed), and
the log of events, oldest first. -/
structure Sys where
  heap : Nat → Option ControlBlockTuple
  shared : List (Option Nat)
  weak : List (Option Nat)
  log : List Event

/-- The system before any handle has been constructed. -/
def Sys.empty : Sys := { heap := fun _ => none, shared := [], weak := [], log := [] }

/-- The `control_block` member of handle `i` of a table, `none` if there is no such
live handle object. -/
def field (hs : List (Option Nat)) (i : Nat) : Option Nat :=
  match hs[i]? with
  | some (some c) => some c
  | _ => none

/-- Overwrite the tuple stored at address `a`. -/
def Sys.store (s : Sys) (a : Nat) (cb : ControlBlockTuple) : Sys :=
  { s with heap := fun x => if x = a then some cb else s.heap x }

/-- The statement `delete control_block` for the allocated block at `a`. -/
def Sys.free (s : Sys) (a : Nat) : Sys :=
  { s with heap := fun x => if x = a then none else s.heap x,
           log := s.log ++ [Event.dealloc a] }

/-- The expression `new ControlBlockTuple(...)` returning address `a`: the allocator
only returns a non-null address that is not in use. -/
def Sys.alloc (s : Sys) (a : Nat) (cb : ControlBlockTuple) : Option Sys :=
  if a ≠ 0 ∧ s.heap a = none then
    some { s with heap := fun x => if x = a then some cb else s.heap x,
                  log := s.log ++ [Event.created a cb.ptr cb.del] }
  else none

/-- Assign the `control_block` member of `SharedPTR` object `i`. -/
def Sys.setShared (s : Sys) (i : Nat) (c : Nat) : Sys :=
  { s with shared := s.shared.set i (some c) }

/-- Assign the `control_block` member of `WeakPtr` object `i`. -/
def Sys.setWeak (s : Sys) (i : Nat) (c : Nat) : Sys :=
  { s with weak := s.weak.set i (some c) }

/-- A new `SharedPTR` object whose member is initialised to `c`; its name is the
length of the table before the call. -/
def Sys.newShared (s : Sys) (c : Nat) : Sys :=
  { s with shared := s.shared ++ [some c] }

/-- A new `WeakPtr` object whose member is initialised to `c`. -/
def Sys.newWeak (s : Sys) (c : Nat) : Sys :=
  { s with weak := s.weak ++ [some c] }

/-- The statement `++shared_count()` through the pointer `c`. -/
def Sys.incShared (s : Sys) (c : Nat) : Option Sys :=
  match s.heap c with
  | none => none
  | some cb => some (s.store c { cb with shared_count := incr cb.shared_count })

/-- The statement `++weak_count()` through the pointer `c`. -/
def Sys.incWeak (s : Sys) (c : Nat) : Option Sys :=
  match s.heap c with
  | none => none
  | some cb => some (s.store c { cb with weak_count := incr cb.weak_count })

/-! ## SharedPTR -/

namespace SharedPTR

/-- `void release()`. -/
def release (this : Nat) (s : Sys) : Option Sys :=
  match field s.shared this with
  | none => none
  | some c =>
    if c = 0 then some s
    else
      match s.heap c with
      | none => none
      | some cb =>
        let n := decr cb.shared_count
        if n = 0 then
          let s1 := { s.store c { cb with shared_count := n, ptr := 0 } with
                      log := s.log ++ [Event.policy c cb.del cb.ptr] }
          if cb.weak_count = 0 then
            some ((s1.free c).setShared this 0)
          else
            some (s1.setShared this 0)
        else
          some ((s.store c { cb with shared_count := n }).setShared this 0)

/-- `SharedPTR()`. -/
def ctor_default (s : Sys) : Option Sys := some (s.newShared 0)

/-- `SharedPTR(Type *pObj, TDeleter deleter)`; `a` is the address `new` returns when
it is called. -/
def ctor_ptr_del (pObj deleter a : Nat) (s : Sys) : Option Sys :=
  if pObj ≠ 0 then
    (s.alloc a ⟨1, 0, pObj, deleter⟩).map (fun s1 => s1.newShared a)
  else
    some (s.newShared 0)

/-- `SharedPTR(Type *pObj)`. -/
def ctor_ptr (pObj a : Nat) (s : Sys) : Option Sys :=
  if pObj ≠ 0 then
    (s.alloc a ⟨1, 0, pObj, TDeleter_default⟩).map (fun s1 => s1.newShared a)
  else
    some (s.newShared 0)

/-- `SharedPTR(t_SharedPTR &&uniquePTR)`. -/
def ctor_move (uniquePTR : Nat) (s : Sys) : Option Sys :=
  match field s.shared uniquePTR with
  | none => none
  | some c => some ((s.newShared c).setShared uniquePTR 0)

/-- `SharedPTR(const t_SharedPTR& other)`. -/
def ctor_copy (other : Nat) (s : Sys) : Option Sys :=
  match field s.shared other with
  | none => none
  | some c =>
    if c ≠ 0 then (s.newShared c).incShared c
    else some (s.newShared c)

/-- `SharedPTR(const WeakPtr<Type, TDeleter>& weak_ptr)`. -/
def ctor_weak (weak_ptr : Nat) (s : Sys) : Option Sys :=
  match field s.weak weak_ptr with
  | none => none
  | some c =>
    if c = 0 then some (s.newShared 0)
    else
      match s.heap c with
      | none => none
      | some cb =>
        if cb.shared_count > 0 then (s.newShared c).incShared c
        else some (s.newShared 0)

/-- `~SharedPTR()`: `release()`, after which the object no longer exists. -/
def dtor (this : Nat) (s : Sys) : Option Sys :=
  (release this s).map (fun s1 => { s1 with shared := s1.shared.set this none })

/-- `operator=(t_SharedPTR &&sharedPTR)`. -/
def assign_move (this sharedPTR : Nat) (s : Sys) : Option Sys :=
  match field s.shared this, field s.shared sharedPTR with
  | some _, some _ =>
    if this ≠ sharedPTR then
      match release this s with
      | none => none
      | some s1 =>
        match field s1.shared sharedPTR with
        | none => none
        | some c => some ((s1.setShared this c).setShared sharedPTR 0)
    else some s
  | _, _ => none

/-- `operator=(const t_SharedPTR& other)`. -/
def assign_copy (this other : Nat) (s : Sys) : Option Sys :=
  match field s.shared this, field s.shared other with
  | some _, some _ =>
    if this ≠ other then
      match release this s with
      | none => none
      | some s1 =>
        match field s1.shared other with
        | none => none
        | some c =>
          if c ≠ 0 then (s1.setShared this c).incShared c
          else some (s1.setShared this c)
    else some s
  | _, _ => none

/-- `void reset(Type *pObject = nullptr)`; `a` is the address `new` returns when it is
called. -/
def reset (this pObject a : Nat) (s : Sys) : Option Sys :=
  match release this s with
  | none => none
  | some s1 =>
    if pObject ≠ 0 then
      (s1.alloc a ⟨1, 0, pObject, TDeleter_default⟩).map (fun s2 => s2.setShared this a)
    else some s1

/-- `operator=(Type *other)`. -/
def assign_ptr (this other a : Nat) (s : Sys) : Option Sys :=
  reset this other a s

/-- `Type* get() const`. -/
def get (this : Nat) (s : Sys) : Option Nat :=
  match field s.shared this with
  | none => none
  | some c =>
    if c ≠ 0 then (s.heap c).map (fun cb => cb.ptr)
    else some 0

/-- `operator bool() const`. -/
def toBool (this : Nat) (s : Sys) : Option Bool :=
  (get this s).map (fun p => p != 0)

/-- `size_t use_count() const`. -/
def use_count (this : Nat) (s : Sys) : Option Nat :=
  match field s.shared this with
  | none => none
  | some c =>
    if c ≠ 0 then (s.heap c).map (fun cb => cb.shared_count)
    else some 0

set_option linter.unusedVariables false in
/-- `void swap(t_SharedPTR &sharedPTR) noexcept`. The body is the one statement
`std::swap(control_block, sharedPTR)`, whose arguments are a `ControlBlockTuple*` and
a `SharedPTR` object; `std::swap` takes two references to one type, so the statement
is rejected when the member is instantiated and no call of `swap` can be executed. -/
def swap (this sharedPTR : Nat) (s : Sys) : Option Sys := none

end SharedPTR

/-! ## WeakPtr -/

namespace WeakPtr

/-- `void increment_weak_count()`. -/
def increment_weak_count (this : Nat) (s : Sys) : Option Sys :=
  match field s.weak this with
  | none => none
  | some c =>
    if c ≠ 0 then s.incWeak c
    else some s

/-- `void decrement_weak_count()`. -/
def decrement_weak_count (this : Nat) (s : Sys) : Option Sys :=
  match field s.weak this with
  | none => none
  | some c =>
    if c ≠ 0 then
      match s.heap c with
      | none => none
      | some cb =>
        let n := decr cb.weak_count
        let s1 := s.store c { cb with weak_count := n }
        if n = 0 ∧ cb.shared_count = 0 then
          some ((s1.free c).setWeak this 0)
        else some s1
    else some s

/-- `WeakPtr()`. -/
def ctor_default (s : Sys) : Option Sys := some (s.newWeak 0)

/-- `WeakPtr(const SharedPTR<Type, TDeleter>& shared_ptr)`. -/
def ctor_shared (shared_ptr : Nat) (s : Sys) : Option Sys :=
  match field s.shared shared_ptr with
  | none => none
  | some c => increment_weak_count s.weak.length (s.newWeak c)

/-- `WeakPtr(const t_WeakPtr& other)`. -/
def ctor_copy (other : Nat) (s : Sys) : Option Sys :=
  match field s.weak other with
  | none => none
  | some c => increment_weak_count s.weak.length (s.newWeak c)

/-- `WeakPtr(t_WeakPtr&& other)`. -/
def ctor_move (other : Nat) (s : Sys) : Option Sys :=
  match field s.weak other with
  | none => none
  | some c => some ((s.newWeak c).setWeak other 0)

/-- `~WeakPtr()`: `decrement_weak_count()`, after which the object no longer exists. -/
def dtor (this : Nat) (s : Sys) : Option Sys :=
  (decrement_weak_count this s).map (fun s1 => { s1 with weak := s1.weak.set this none })

/-- `operator=(const SharedPTR<Type, TDeleter>& shared_ptr)`. -/
def assign_shared (this shared_ptr : Nat) (s : Sys) : Option Sys :=
  match decrement_weak_count this s with
  | none => none
  | some s1 =>
    match field s1.shared shared_ptr with
    | none => none
    | some c => increment_weak_count this (s1.setWeak this c)

/-- `operator=(const t_WeakPtr& other)`. -/
def assign_copy (this other : Nat) (s : Sys) : Option Sys :=
  match field s.weak this, field s.weak other with
  | some _, some _ =>
    if this ≠ other then
      match decrement_weak_count this s with
      | none => none
      | some s1 =>
        match field s1.weak other with
        | none => none
        | some c => increment_weak_count this (s1.setWeak this c)
    else some s
  | _, _ => none

/-- `SharedPTR<Type, TDeleter> lock() const`. -/
def lock (this : Nat) (s : Sys) : Option Sys :=
  SharedPTR.ctor_weak this s

/-- `bool expired() const`. -/
def expired (this : Nat) (s : Sys) : Option Bool :=
  match field s.weak this with
  | none => none
  | some c =>
    if c = 0 then some true
    else (s.heap c).map (fun cb => cb.shared_count == 0)

/-- `size_t use_count() const`. -/
def use_count (this : Nat) (s : Sys) : Option Nat :=
  match field s.weak this with
  | none => none
  | some c =>
    if c ≠ 0 then (s.heap c).map (fun cb => cb.shared_count)
    else some 0

end WeakPtr

/-- `make_shared<Type>(args...)`; `p` is the address returned by `new Type(args...)`,
which is never null, and `a` the address of the control block. -/
def make_shared (p a : Nat) (s : Sys) : Option Sys :=
  if p ≠ 0 then SharedPTR.ctor_ptr p a s else none

/-! ## Public operations and reachable states -/

/-- The calls a client can make that change the system. Constructors create the handle
object named by the length of the table; the other calls name the objects they act
on. The observers change nothing and are functions of their own. `swap` is not
listed: its body hands `std::swap` a pointer and a handle object, which is rejected
as soon as the member is instantiated. -/
inductive Op where
  | shared_default
  | shared_ptr (pObj a : Nat)
  | shared_ptr_del (pObj deleter a : Nat)
  | shared_move (uniquePTR : Nat)
  | shared_copy (other : Nat)
  | shared_weak (weak_ptr : Nat)
  | shared_dtor (this : Nat)
  | shared_assign_move (this sharedPTR : Nat)
  | shared_assign_copy (this other : Nat)
  | shared_reset (this pObject a : Nat)
  | shared_assign_ptr (this other a : Nat)
  | make_shared (p a : Nat)
  | weak_default
  | weak_shared (shared_ptr : Nat)
  | weak_copy (other : Nat)
  | weak_move (other : Nat)
  | weak_dtor (this : Nat)
  | weak_assign_shared (this shared_ptr : Nat)
  | weak_assign_copy (this other : Nat)
  | weak_lock (this : Nat)

/-- Execute one call. -/
def step : Op → Sys → Option Sys
  | .shared_default, s => SharedPTR.ctor_default s
  | .shared_ptr pObj a, s => SharedPTR.ctor_ptr pObj a s
  | .shared_ptr_del pObj d a, s => SharedPTR.ctor_ptr_del pObj d a s
  | .shared_move j, s => SharedPTR.ctor_move j s
  | .shared_copy j, s => SharedPTR.ctor_copy j s
  | .shared_weak w, s => SharedPTR.ctor_weak w s
  | .shared_dtor i, s => SharedPTR.dtor i s
  | .shared_assign_move i j, s => SharedPTR.assign_move i j s
  | .shared_assign_copy i j, s => SharedPTR.assign_copy i j s
  | .shared_reset i p a, s => SharedPTR.reset i p a s
  | .shared_assign_ptr i p a, s => SharedPTR.assign_ptr i p a s
  | .make_shared p a, s => make_shared p a s
  | .weak_default, s => WeakPtr.ctor_default s
  | .weak_shared j, s => WeakPtr.ctor_shared j s
  | .weak_copy w, s => WeakPtr.ctor_copy w s
  | .weak_move w, s => WeakPtr.ctor_move w s
  | .weak_dtor w, s => WeakPtr.dtor w s
  | .weak_assign_shared w j, s => WeakPtr.assign_shared w j s
  | .weak_assign_copy w v, s => WeakPtr.assign_copy w v s
  | .weak_lock w, s => WeakPtr.lock w s

/-- Number of live handle objects of a table. -/
def live (hs : List (Option Nat)) : Nat := hs.countP Option.isSome

/-- Number of handle objects attached to the block at `a`. -/
def attached (hs : List (Option Nat)) (a : Nat) : Nat := hs.count (some a)

/-- States reachable from the empty system by public operations. Every handle object
occupies storage of its own, so a state holds fewer than `2 ^ 64` of them. -/
inductive Reachable : Sys → Prop where
  | init : Reachable Sys.empty
  | step (op : Op) (s s' : Sys) :
      Reachable s → step op s = some s' → live s'.shared + live s'.weak < SIZE_MOD →
      Reachable s'

/-- Run a list of calls from a state, within the bound on the number of handle
objects. -/
def exec : List Op → Sys → Option Sys
  | [], s => some s
  | op :: ops, s =>
    match step op s with
    | none => none
    | some s1 => if live s1.shared + live s1.weak < SIZE_MOD then exec ops s1 else none

/-- The state after the calls `ops` from the empty system (the empty system if they
cannot be executed). -/
def after (ops : List Op) : Sys := (exec ops Sys.empty).getD Sys.empty

/-! ## Assignment as destruction followed by construction -/

/-- `SharedPTR(const t_SharedPTR& other)` run on the storage of the destroyed handle
object `this`, which makes `this` a live object again. -/
def SharedPTR.ctor_copy_at (this other : Nat) (s : Sys) : Option Sys :=
  match s.shared[this]?, field s.shared other with
  | some none, some c =>
    let s1 : Sys := { s with shared := s.shared.set this (some c) }
    if c ≠ 0 then s1.incShared c
    else some s1
  | _, _ => none

/-- `SharedPTR(t_SharedPTR &&uniquePTR)` run on the storage of the destroyed handle
object `this`. -/
def SharedPTR.ctor_move_at (this uniquePTR : Nat) (s : Sys) : Option Sys :=
  match s.shared[this]?, field s.shared uniquePTR with
  | some none, some c =>
    some (({ s with shared := s.shared.set this (some c) } : Sys).setShared uniquePTR 0)
  | _, _ => none

/-- What copy assignment is compared with: destroying `this` and then copy-constructing
it anew from `other`. -/
def assign_copy_spec (this other : Nat) (s : Sys) : Option Sys :=
  (SharedPTR.dtor this s).bind (SharedPTR.ctor_copy_at this other)

/-- What move assignment is compared with: destroying `this` and then move-constructing
it anew from `sharedPTR`. -/
def assign_move_spec (this sharedPTR : Nat) (s : Sys) : Option Sys :=
  (SharedPTR.dtor this s).bind (SharedPTR.ctor_move_at this sharedPTR)

/-! ## Managed objects that hold handles

`SharedPTR.release` above records the call `del()(ptr())` in the log and goes on with
the tuple it has read: that is the behaviour when the managed object holds no handle
of the system. The call destroys the managed object, and `~Type` runs the destructors
of the handle objects that are data members of the object. The functions of this
section run those destructors inside `release`, which afterwards reads the member
`control_block` and the control block again, as the statements `ptr() = nullptr` and
`weak_count() == 0` of `Shared.h` do. -/

/-- A handle object that is a data member of a managed object. -/
inductive Member where
  | shared (i : Nat)
  | weak (i : Nat)
  deriving DecidableEq

/-- Why an execution stops before the member function returns: it reads the member
of a handle object whose lifetime has ended, it dereferences a null `control_block`,
it accesses a control block that is not allocated (all undefined behaviour), `new`
cannot return the address it is asked for, or the fuel of the model is used up. -/
inductive Stop where
  | destroyed_handle
  | null_block
  | freed_block (c : Nat)
  | no_address
  | out_of_fuel
  deriving DecidableEq

/-- The result of running a member function: it returned in a state, or the execution
stopped in a state. -/
inductive Outcome where
  | done (s : Sys)
  | stopped (why : Stop) (s : Sys)

/-- The state in which the execution ended. -/
def Outcome.state : Outcome → Sys
  | .done s => s
  | .stopped _ s => s

/-- Why the execution stopped, `none` if the member function returned. -/
def Outcome.stop : Outcome → Option Stop
  | .done _ => none
  | .stopped w _ => some w

namespace WithMembers

/-- `~WeakPtr()` run by the destructor of a managed object. -/
def weak_dtor (this : Nat) (s : Sys) : Outcome :=
  match field s.weak this with
  | none => .stopped .destroyed_handle s
  | some c =>
    match WeakPtr.dtor this s with
    | none => .stopped (.freed_block c) s
    | some s1 => .done s1

/-- `~Type()` of a managed object whose handle members are, in the order of their
destruction, `ms`: every `SharedPTR` member runs `release()` (the function `rel`) and
ends its lifetime, every `WeakPtr` member runs `~WeakPtr()`. -/
def destroy_members (rel : Nat → Sys → Outcome) : List Member → Sys → Outcome
  | [], s => .done s
  | .shared i :: ms, s =>
    match rel i s with
    | .done s1 => destroy_members rel ms { s1 with shared := s1.shared.set i none }
    | o => o
  | .weak i :: ms, s =>
    match weak_dtor i s with
    | .done s1 => destroy_members rel ms s1
    | o => o

/-- The statement `del()(ptr())` of `release()` for the tuple `cb` at `c`: the call is
logged and the deleter destroys the object, whose handle members are `M cb.ptr`. -/
def call_deleter (rel : Nat → Sys → Outcome) (M : Nat → List Member) (c : Nat)
    (cb : ControlBlockTuple) (s : Sys) : Outcome :=
  destroy_members rel (M cb.ptr) { s with log := s.log ++ [Event.policy c cb.del cb.ptr] }

/-- `void release()`, statement by statement, when the object at address `p` has the
handle members `M p`. The first argument bounds the depth of the nested calls. -/
def release (M : Nat → List Member) : Nat → Nat → Sys → Outcome
  | 0, _, s => .stopped .out_of_fuel s
  | fuel + 1, this, s =>
    match field s.shared this with
    | none => .stopped .destroyed_handle s
    | some c =>
      if c = 0 then .done s
      else
        match s.heap c with
        | none => .stopped (.freed_block c) s
        | some cb =>
          let n := decr cb.shared_count
          let s1 := s.store c { cb with shared_count := n }
          if n = 0 then
            match call_deleter (release M fuel) M c cb s1 with
            | .done s3 =>
              match field s3.shared this with
              | none => .stopped .destroyed_handle s3
              | some c3 =>
                if c3 = 0 then .stopped .null_block s3
                else
                  match s3.heap c3 with
                  | none => .stopped (.freed_block c3) s3
                  | some cb3 =>
                    let s4 := s3.store c3 { cb3 with ptr := 0 }
                    if cb3.weak_count = 0 then .done ((s4.free c3).setShared this 0)
                    else .done (s4.setShared this 0)
            | o => o
          else .done (s1.setShared this 0)

/-- `void reset(Type *pObject = nullptr)` with the `release()` of this section. -/
def reset (M : Nat → List Member) (fuel this pObject a : Nat) (s : Sys) : Outcome :=
  match release M fuel this s with
  | .done s1 =>
    if pObject ≠ 0 then
      match s1.alloc a ⟨1, 0, pObject, TDeleter_default⟩ with
      | none => .stopped .no_address s1
      | some s2 => .done (s2.setShared this a)
    else .done s1
  | o => o

end WithMembers

/-- The handle members of `struct Node { WeakPtr<Node> self; }` for a `Node` at
address 7 whose member `self` is the `WeakPtr` object 0. -/
def node_weak_self : Nat → List Member := fun p => if p = 7 then [Member.weak 0] else []

/-- The handle members of `struct N { SharedPTR<N> self; }` for an `N` at address 7
whose member `self` is the `SharedPTR` object 0. -/
def node_shared_self : Nat → List Member := fun p => if p = 7 then [Member.shared 0] else []

/-! ## Lifetimes of control blocks -/

/-- One step of `lifetime`. -/
def lifeStep (a : Nat) (acc : List Event) (e : Event) : List Event :=
  match e with
  | .created b _ _ => if b = a then [e] else acc
  | .policy b _ _ => if b = a then acc ++ [e] else acc
  | .dealloc b => if b = a then acc ++ [e] else acc

/-- The events of the log that concern the block most recently allocated at `a`: its
creation and everything that happened to it since. -/
def lifetime (a : Nat) (log : List Event) : List Event := log.foldl (lifeStep a) []

/-- Whether an event is a call of the deleter. -/
def Event.isPolicy : Event → Bool
  | .policy _ _ _ => true
  | _ => false

/-- The calls of the deleter in a log, in order. -/
def policies (log : List Event) : List Event := log.filter Event.isPolicy

/-- The call of the deleter expected when `SharedPTR` object `i` detaches: there is
one exactly when the object is attached to a block whose strong counter is 1, and it
applies the stored deleter to the stored object. -/
def fires (i : Nat) (s : Sys) : List Event :=
  match field s.shared i with
  | none => []
  | some c =>
    if c = 0 then []
    else
      match s.heap c with
      | none => []
      | some cb => if cb.shared_count = 1 then [Event.policy c cb.del cb.ptr] else []

/-- The `SharedPTR` object on which a call runs `release()`, if it does: the
destructor, `reset`, `operator=(Type*)`, and the assignments whose source is another
object. -/
def released : Op → Option Nat
  | .shared_dtor i => some i
  | .shared_assign_move i j => if i ≠ j then some i else none
  | .shared_assign_copy i j => if i ≠ j then some i else none
  | .shared_reset i _ _ => some i
  | .shared_assign_ptr i _ _ => some i
  | _ => none

/-! ## The invariant -/

/-- What holds of address `a`. A block that is not allocated has no handle attached
and either was never allocated or went through creation, one call of the deleter and
one deallocation, in this order. An allocated block is not at the null address, its
counters are the numbers of attached handles, some handle is attached, and the
object is the adopted one and alive while the strong counter is positive, destroyed
by one call of the stored deleter once it is zero. -/
def BlockOk (s : Sys) (a : Nat) : Prop :=
  match s.heap a with
  | none =>
      (a ≠ 0 → attached s.shared a = 0 ∧ attached s.weak a = 0) ∧
      (lifetime a s.log = [] ∨
        ∃ p d, p ≠ 0 ∧ lifetime a s.log = [.created a p d, .policy a d p, .dealloc a])
  | some cb =>
      a ≠ 0 ∧ cb.shared_count = attached s.shared a ∧ cb.weak_count = attached s.weak a
        ∧ 0 < cb.shared_count + cb.weak_count
        ∧ (0 < cb.shared_count →
            cb.ptr ≠ 0 ∧ lifetime a s.log = [.created a cb.ptr cb.del])
        ∧ (cb.shared_count = 0 →
            cb.ptr = 0 ∧ ∃ p, p ≠ 0 ∧
              lifetime a s.log = [.created a p cb.del, .policy a cb.del p])

/-- The invariant of the reachable states. -/
structure Inv (s : Sys) : Prop where
  blocks : ∀ a, BlockOk s a
  bound : live s.shared + live s.weak < SIZE_MOD

/-! # Theorems -/

/-! ## Counting lemmas -/

theorem field_some {hs : List (Option Nat)} {i c : Nat} (h : field hs i = some c) :
    hs[i]? = some (some c) := by
  unfold field at h
  split at h
  · simp_all
  · simp at h

theorem field_of_get {hs : List (Option Nat)} {i c : Nat} (h : hs[i]? = some (some c)) :
    field hs i = some c := by
  simp [field, h]

theorem count_set_of_get (b : Option Nat) :
    ∀ (l : List (Option Nat)) (i : Nat) (old new : Option Nat), l[i]? = some old →
      (l.set i new).count b + (if old = b then 1 else 0)
        = l.count b + (if new = b then 1 else 0)
  | [], i, old, new, h => by simp at h
  | x :: l, 0, old, new, h => by
      simp at h
      subst h
      simp only [List.set_cons_zero, List.count_cons, beq_iff_eq]
      omega
  | x :: l, i + 1, old, new, h => by
      simp at h
      have ih := count_set_of_get b l i old new h
      simp only [List.set_cons_succ, List.count_cons, beq_iff_eq]
      omega

theorem countP_set_of_get (p : Option Nat → Bool) :
    ∀ (l : List (Option Nat)) (i : Nat) (old new : Option Nat), l[i]? = some old →
      (l.set i new).countP p + (if p old then 1 else 0)
        = l.countP p + (if p new then 1 else 0)
  | [], i, old, new, h => by simp at h
  | x :: l, 0, old, new, h => by
      simp at h
      subst h
      simp only [List.set_cons_zero, List.countP_cons]
      omega
  | x :: l, i + 1, old, new, h => by
      simp at h
      have ih := countP_set_of_get p l i old new h
      simp only [List.set_cons_succ, List.countP_cons]
      omega

theorem attached_le_live (hs : List (Option Nat)) (a : Nat) : attached hs a ≤ live hs := by
  unfold attached live List.count
  apply List.countP_mono_left
  intro x _ hx
  simp at hx
  simp [hx]

theorem attached_pos_of_field {hs : List (Option Nat)} {i c : Nat} (h : field hs i = some c) :
    0 < attached hs c := by
  unfold attached
  rw [List.count_pos_iff]
  exact List.getElem?_mem (field_some h)



theorem attached_set {hs : List (Option Nat)} {i c : Nat} (h : field hs i = some c)
    (c' a : Nat) :
    attached (hs.set i (some c')) a + (if c = a then 1 else 0)
      = attached hs a + (if c' = a then 1 else 0) := by
  have := count_set_of_get (some a) hs i (some c) (some c') (field_some h)
  simpa [attached] using this

theorem attached_set_none {hs : List (Option Nat)} {i c : Nat} (h : field hs i = some c)
    (a : Nat) :
    attached (hs.set i none) a + (if c = a then 1 else 0) = attached hs a := by
  have := count_set_of_get (some a) hs i (some c) none (field_some h)
  simpa [attached] using this

theorem attached_push (hs : List (Option Nat)) (c a : Nat) :
    attached (hs ++ [some c]) a = attached hs a + (if c = a then 1 else 0) := by
  simp [attached, List.count_singleton]

theorem live_set {hs : List (Option Nat)} {i c : Nat} (h : field hs i = some c) (c' : Nat) :
    live (hs.set i (some c')) = live hs := by
  have := countP_set_of_get Option.isSome hs i (some c) (some c') (field_some h)
  simpa [live] using this

theorem live_set_none {hs : List (Option Nat)} {i c : Nat} (h : field hs i = some c) :
    live (hs.set i none) + 1 = live hs := by
  have := countP_set_of_get Option.isSome hs i (some c) none (field_some h)
  simpa [live] using this

theorem live_push (hs : List (Option Nat)) (c : Nat) :
    live (hs ++ [some c]) = live hs + 1 := by
  simp [live]

theorem field_set_self {hs : List (Option Nat)} {i c : Nat} (h : field hs i = some c)
    (c' : Nat) : field (hs.set i (some c')) i = some c' := by
  have hlt : i < hs.length := by
    have := field_some h
    exact (List.getElem?_eq_some_iff.mp this).1
  simp [field, List.getElem?_set, hlt]

theorem field_set_ne (hs : List (Option Nat)) {i j : Nat} (h : i ≠ j) (x : Option Nat) :
    field (hs.set i x) j = field hs j := by
  simp [field, List.getElem?_set, h]

theorem field_push_new (hs : List (Option Nat)) (c : Nat) :
    field (hs ++ [some c]) hs.length = some c := by
  simp [field]

theorem field_push_old {hs : List (Option Nat)} {j c : Nat} (h : field hs j = some c)
    (x : Option Nat) : field (hs ++ [x]) j = some c := by
  have h1 := field_some h
  have hlt : j < hs.length := (List.getElem?_eq_some_iff.mp h1).1
  simp [field, List.getElem?_append_left hlt, h1]

theorem field_lt {hs : List (Option Nat)} {i c : Nat} (h : field hs i = some c) :
    i < hs.length := (List.getElem?_eq_some_iff.mp (field_some h)).1

theorem lifetime_snoc (a : Nat) (log : List Event) (e : Event) :
    lifetime a (log ++ [e]) = lifeStep a (lifetime a log) e := by
  simp [lifetime, List.foldl_append]

theorem incr_eq {n : Nat} (h : n + 1 < SIZE_MOD) : incr n = n + 1 := by
  unfold incr
  exact Nat.mod_eq_of_lt h

theorem decr_eq {n : Nat} (h0 : 0 < n) (h : n < SIZE_MOD) : decr n = n - 1 := by
  unfold decr
  have : n + SIZE_MOD - 1 = (n - 1) + SIZE_MOD := by omega
  rw [this, Nat.add_mod_right]
  exact Nat.mod_eq_of_lt (by omega)

/-- The block a live `SharedPTR` is attached to is allocated, with a positive strong
counter below the modulus. -/
theorem shared_attached_block {s : Sys} (hI : Inv s) {i c : Nat}
    (hf : field s.shared i = some c) (hc : c ≠ 0) :
    ∃ cb, s.heap c = some cb ∧ cb.shared_count = attached s.shared c ∧
      0 < cb.shared_count ∧ cb.shared_count < SIZE_MOD := by
  have hpos := attached_pos_of_field hf
  have hle := attached_le_live s.shared c
  have hb := hI.bound
  have hB := hI.blocks c
  unfold BlockOk at hB
  split at hB
  · have := (hB.1 hc).1; omega
  · rename_i cb hcb
    exact ⟨cb, hcb, hB.2.1, by omega, by omega⟩

/-- What `release` does, as a case distinction on the handle and on the counters. -/
theorem release_cases {s s1 : Sys} {i : Nat} (hI : Inv s)
    (h : SharedPTR.release i s = some s1) :
    (field s.shared i = some 0 ∧ s1 = s) ∨
    ∃ c cb, c ≠ 0 ∧ field s.shared i = some c ∧ s.heap c = some cb ∧ 0 < cb.shared_count ∧
      ((1 < cb.shared_count ∧
          s1 = (s.store c { cb with shared_count := cb.shared_count - 1 }).setShared i 0) ∨
       (cb.shared_count = 1 ∧ 0 < cb.weak_count ∧
          s1 = ({ s.store c { cb with shared_count := 0, ptr := 0 } with
                  log := s.log ++ [Event.policy c cb.del cb.ptr] }).setShared i 0) ∨
       (cb.shared_count = 1 ∧ cb.weak_count = 0 ∧
          s1 = (({ s.store c { cb with shared_count := 0, ptr := 0 } with
                  log := s.log ++ [Event.policy c cb.del cb.ptr] }).free c).setShared i 0)) := by
  unfold SharedPTR.release at h
  split at h
  · simp at h
  · rename_i c hc
    split at h
    · rename_i hc0
      subst hc0
      simp at h; subst h; exact Or.inl ⟨hc, rfl⟩
    · rename_i hc0
      obtain ⟨cb, hcb, _, hpos, hlt⟩ := shared_attached_block hI hc hc0
      rw [hcb] at h
      simp only [decr_eq hpos hlt] at h
      refine Or.inr ⟨c, cb, hc0, hc, hcb, hpos, ?_⟩
      split at h
      · rename_i hn
        have h1 : cb.shared_count = 1 := by omega
        split at h
        · rename_i hw
          simp at h
          right; right
          refine ⟨h1, hw, ?_⟩
          rw [← h, hn]
        · rename_i hw
          simp at h
          right; left
          refine ⟨h1, by omega, ?_⟩
          rw [← h, hn]
      · rename_i hn
        simp at h
        left
        exact ⟨by omega, h.symm⟩

/-! ## Preservation of the invariant by the elementary changes of state

Every elementary change touches one control block `c`; the handle tables after the
change are arbitrary tables whose attachment counts differ from the old ones in the
stated way, so that the same lemma serves a newly constructed handle and an existing
one. -/

theorem BlockOk_frame (s s' : Sys) {a : Nat} (hh : s'.heap a = s.heap a)
    (hs : a ≠ 0 → attached s'.shared a = attached s.shared a)
    (hw : a ≠ 0 → attached s'.weak a = attached s.weak a)
    (hl : lifetime a s'.log = lifetime a s.log) (h : BlockOk s a) : BlockOk s' a := by
  unfold BlockOk at h ⊢
  rw [hh, hl]
  split at h
  · refine ⟨fun ha => ?_, h.2⟩
    rw [hs ha, hw ha]
    exact h.1 ha
  · obtain ⟨ha, h⟩ := h
    rw [hs ha, hw ha]
    exact ⟨ha, h⟩

/-- Only the tables change, and no attachment to a block changes. -/
theorem Inv_same {s : Sys} (hI : Inv s) (sh wk : List (Option Nat))
    (hs : ∀ a, a ≠ 0 → attached sh a = attached s.shared a)
    (hw : ∀ a, a ≠ 0 → attached wk a = attached s.weak a)
    (hb : live sh + live wk < SIZE_MOD) :
    Inv { s with shared := sh, weak := wk } :=
  ⟨fun a => BlockOk_frame s _ rfl (hs a) (hw a) rfl (hI.blocks a), hb⟩

/-- One `SharedPTR` leaves a block that keeps another one. -/
theorem Inv_strong_dec {s : Sys} (hI : Inv s) {c : Nat} {cb : ControlBlockTuple}
    (hcb : s.heap c = some cb) (h1 : 1 < cb.shared_count) (sh : List (Option Nat))
    (hs : ∀ a, a ≠ 0 → attached sh a + (if c = a then 1 else 0) = attached s.shared a)
    (hb : live sh + live s.weak < SIZE_MOD)
    (H : Nat → Option ControlBlockTuple) (hpc : H c = some { cb with shared_count := cb.shared_count - 1 })
    (hpf : ∀ x, x ≠ c → H x = s.heap x) :
    Inv { s with heap := H,
                 shared := sh } := by
  refine ⟨fun a => ?_, hb⟩
  by_cases hac : a = c
  · subst hac
    have hB := hI.blocks a
    simp only [BlockOk, hcb] at hB
    have := hs a hB.1
    simp only [BlockOk, if_true, hpc] at this ⊢
    refine ⟨hB.1, by omega, hB.2.2.1, by omega, fun _ => hB.2.2.2.2.1 (by omega), ?_⟩
    intro h0
    omega
  · refine BlockOk_frame s _ (hpf a hac) (fun ha => ?_) (fun _ => rfl) rfl (hI.blocks a)
    have := hs a ha
    simp only [if_neg (Ne.symm hac)] at this
    show attached sh a = attached s.shared a
    omega

/-- The last `SharedPTR` leaves a block that a `WeakPtr` still watches. -/
theorem Inv_strong_destroy {s : Sys} (hI : Inv s) {c : Nat} {cb : ControlBlockTuple}
    (hcb : s.heap c = some cb) (h1 : cb.shared_count = 1) (hw : 0 < cb.weak_count)
    (sh : List (Option Nat))
    (hs : ∀ a, a ≠ 0 → attached sh a + (if c = a then 1 else 0) = attached s.shared a)
    (hb : live sh + live s.weak < SIZE_MOD)
    (H : Nat → Option ControlBlockTuple) (hpc : H c = some { cb with shared_count := 0, ptr := 0 })
    (hpf : ∀ x, x ≠ c → H x = s.heap x) :
    Inv { s with heap := H,
                 shared := sh,
                 log := s.log ++ [Event.policy c cb.del cb.ptr] } := by
  refine ⟨fun a => ?_, hb⟩
  by_cases hac : a = c
  · subst hac
    have hB := hI.blocks a
    simp only [BlockOk, hcb] at hB
    have := hs a hB.1
    have hl := hB.2.2.2.2.1 (by omega)
    simp only [BlockOk, if_true, hpc, lifetime_snoc, lifeStep, hl.2] at this ⊢
    refine ⟨hB.1, by omega, hB.2.2.1, by simpa using hw, fun h => by simp at h, ?_⟩
    intro _
    exact ⟨by simp, cb.ptr, hl.1, by simp⟩
  · refine BlockOk_frame s _ (hpf a hac) (fun ha => ?_) (fun _ => rfl) ?_ (hI.blocks a)
    · have := hs a ha
      simp only [if_neg (Ne.symm hac)] at this
      show attached sh a = attached s.shared a
      omega
    · show lifetime a _ = lifetime a s.log
      simp only [lifetime_snoc, lifeStep, if_neg (Ne.symm hac)]

/-- The last `SharedPTR` leaves a block that no `WeakPtr` watches. -/
theorem Inv_strong_free {s : Sys} (hI : Inv s) {c : Nat} {cb : ControlBlockTuple}
    (hcb : s.heap c = some cb) (h1 : cb.shared_count = 1) (hw : cb.weak_count = 0)
    (sh : List (Option Nat))
    (hs : ∀ a, a ≠ 0 → attached sh a + (if c = a then 1 else 0) = attached s.shared a)
    (hb : live sh + live s.weak < SIZE_MOD)
    (H : Nat → Option ControlBlockTuple) (hpc : H c = none)
    (hpf : ∀ x, x ≠ c → H x = s.heap x) :
    Inv { s with heap := H,
                 shared := sh,
                 log := s.log ++ [Event.policy c cb.del cb.ptr] ++ [Event.dealloc c] } := by
  refine ⟨fun a => ?_, hb⟩
  by_cases hac : a = c
  · subst hac
    have hB := hI.blocks a
    simp only [BlockOk, hcb] at hB
    have := hs a hB.1
    have hl := hB.2.2.2.2.1 (by omega)
    simp only [BlockOk, if_true, hpc, lifetime_snoc, lifeStep, hl.2] at this ⊢
    refine ⟨fun _ => ⟨by omega, by omega⟩, Or.inr ⟨cb.ptr, cb.del, hl.1, by simp⟩⟩
  · refine BlockOk_frame s _ (hpf a hac) (fun ha => ?_) (fun _ => rfl) ?_ (hI.blocks a)
    · have := hs a ha
      simp only [if_neg (Ne.symm hac)] at this
      show attached sh a = attached s.shared a
      omega
    · show lifetime a _ = lifetime a s.log
      simp only [lifetime_snoc, lifeStep, if_neg (Ne.symm hac)]

/-- One more `SharedPTR` joins a block whose object is alive. -/
theorem Inv_strong_inc {s : Sys} (hI : Inv s) {c : Nat} {cb : ControlBlockTuple}
    (hcb : s.heap c = some cb) (h1 : 0 < cb.shared_count) (sh : List (Option Nat))
    (hs : ∀ a, a ≠ 0 → attached sh a = attached s.shared a + (if c = a then 1 else 0))
    (hb : live sh + live s.weak < SIZE_MOD)
    (H : Nat → Option ControlBlockTuple) (hpc : H c = some { cb with shared_count := cb.shared_count + 1 })
    (hpf : ∀ x, x ≠ c → H x = s.heap x) :
    Inv { s with heap := H,
                 shared := sh } := by
  refine ⟨fun a => ?_, hb⟩
  by_cases hac : a = c
  · subst hac
    have hB := hI.blocks a
    simp only [BlockOk, hcb] at hB
    have := hs a hB.1
    simp only [BlockOk, if_true, hpc] at this ⊢
    refine ⟨hB.1, by omega, hB.2.2.1, by omega, fun _ => hB.2.2.2.2.1 (by omega), ?_⟩
    intro h0
    omega
  · refine BlockOk_frame s _ (hpf a hac) (fun ha => ?_) (fun _ => rfl) rfl (hI.blocks a)
    have := hs a ha
    simp only [if_neg (Ne.symm hac)] at this
    show attached sh a = attached s.shared a
    omega

/-- A `SharedPTR` adopts an object in a new control block. -/
theorem Inv_adopt {s : Sys} (hI : Inv s) {c p d : Nat} (hc : c ≠ 0) (hfree : s.heap c = none)
    (hp : p ≠ 0) (sh : List (Option Nat))
    (hs : ∀ a, a ≠ 0 → attached sh a = attached s.shared a + (if c = a then 1 else 0))
    (hb : live sh + live s.weak < SIZE_MOD)
    (H : Nat → Option ControlBlockTuple) (hpc : H c = some ⟨1, 0, p, d⟩)
    (hpf : ∀ x, x ≠ c → H x = s.heap x) :
    Inv { s with heap := H,
                 shared := sh,
                 log := s.log ++ [Event.created c p d] } := by
  refine ⟨fun a => ?_, hb⟩
  by_cases hac : a = c
  · subst hac
    have hB := hI.blocks a
    simp only [BlockOk, hfree] at hB
    have := hs a hc
    have h0 := hB.1 hc
    simp only [BlockOk, if_true, hpc, lifetime_snoc, lifeStep] at this ⊢
    refine ⟨hc, by omega, by omega, by omega, fun _ => ⟨hp, by simp⟩, fun h => by simp at h⟩
  · refine BlockOk_frame s _ (hpf a hac) (fun ha => ?_) (fun _ => rfl) ?_ (hI.blocks a)
    · have := hs a ha
      simp only [if_neg (Ne.symm hac)] at this
      show attached sh a = attached s.shared a
      omega
    · show lifetime a _ = lifetime a s.log
      simp only [lifetime_snoc, lifeStep, if_neg (Ne.symm hac)]

/-- One `WeakPtr` leaves a block that keeps another handle. -/
theorem Inv_weak_dec {s : Sys} (hI : Inv s) {c : Nat} {cb : ControlBlockTuple}
    (hcb : s.heap c = some cb) (h1 : 1 < cb.weak_count ∨ 0 < cb.shared_count)
    (wk : List (Option Nat))
    (hs : ∀ a, a ≠ 0 → attached wk a + (if c = a then 1 else 0) = attached s.weak a)
    (hb : live s.shared + live wk < SIZE_MOD)
    (H : Nat → Option ControlBlockTuple) (hpc : H c = some { cb with weak_count := cb.weak_count - 1 })
    (hpf : ∀ x, x ≠ c → H x = s.heap x) :
    Inv { s with heap := H,
                 weak := wk } := by
  refine ⟨fun a => ?_, hb⟩
  by_cases hac : a = c
  · subst hac
    have hB := hI.blocks a
    simp only [BlockOk, hcb] at hB
    have := hs a hB.1
    simp only [BlockOk, if_true, hpc] at this ⊢
    exact ⟨hB.1, hB.2.1, by omega, by omega, hB.2.2.2.2.1, hB.2.2.2.2.2⟩
  · refine BlockOk_frame s _ (hpf a hac) (fun _ => rfl) (fun ha => ?_) rfl (hI.blocks a)
    have := hs a ha
    simp only [if_neg (Ne.symm hac)] at this
    show attached wk a = attached s.weak a
    omega

/-- The last `WeakPtr` leaves a block whose object is already destroyed. -/
theorem Inv_weak_free {s : Sys} (hI : Inv s) {c : Nat} {cb : ControlBlockTuple}
    (hcb : s.heap c = some cb) (h1 : cb.weak_count = 1) (h0 : cb.shared_count = 0)
    (wk : List (Option Nat))
    (hs : ∀ a, a ≠ 0 → attached wk a + (if c = a then 1 else 0) = attached s.weak a)
    (hb : live s.shared + live wk < SIZE_MOD)
    (H : Nat → Option ControlBlockTuple) (hpc : H c = none)
    (hpf : ∀ x, x ≠ c → H x = s.heap x) :
    Inv { s with heap := H,
                 weak := wk,
                 log := s.log ++ [Event.dealloc c] } := by
  refine ⟨fun a => ?_, hb⟩
  by_cases hac : a = c
  · subst hac
    have hB := hI.blocks a
    simp only [BlockOk, hcb] at hB
    have := hs a hB.1
    obtain ⟨_, p, hp0, hl⟩ := hB.2.2.2.2.2 h0
    simp only [BlockOk, if_true, hpc, lifetime_snoc, lifeStep, hl] at this ⊢
    exact ⟨fun _ => ⟨by omega, by omega⟩, Or.inr ⟨p, cb.del, hp0, by simp⟩⟩
  · refine BlockOk_frame s _ (hpf a hac) (fun _ => rfl) (fun ha => ?_) ?_ (hI.blocks a)
    · have := hs a ha
      simp only [if_neg (Ne.symm hac)] at this
      show attached wk a = attached s.weak a
      omega
    · show lifetime a _ = lifetime a s.log
      simp only [lifetime_snoc, lifeStep, if_neg (Ne.symm hac)]

/-- One more `WeakPtr` joins a block. -/
theorem Inv_weak_inc {s : Sys} (hI : Inv s) {c : Nat} {cb : ControlBlockTuple}
    (hcb : s.heap c = some cb) (wk : List (Option Nat))
    (hs : ∀ a, a ≠ 0 → attached wk a = attached s.weak a + (if c = a then 1 else 0))
    (hb : live s.shared + live wk < SIZE_MOD)
    (H : Nat → Option ControlBlockTuple) (hpc : H c = some { cb with weak_count := cb.weak_count + 1 })
    (hpf : ∀ x, x ≠ c → H x = s.heap x) :
    Inv { s with heap := H,
                 weak := wk } := by
  refine ⟨fun a => ?_, hb⟩
  by_cases hac : a = c
  · subst hac
    have hB := hI.blocks a
    simp only [BlockOk, hcb] at hB
    have := hs a hB.1
    simp only [BlockOk, if_true, hpc] at this ⊢
    exact ⟨hB.1, hB.2.1, by omega, by omega, hB.2.2.2.2.1, hB.2.2.2.2.2⟩
  · refine BlockOk_frame s _ (hpf a hac) (fun _ => rfl) (fun ha => ?_) rfl (hI.blocks a)
    have := hs a ha
    simp only [if_neg (Ne.symm hac)] at this
    show attached wk a = attached s.weak a
    omega

/-- The block a live `WeakPtr` is attached to is allocated, with a positive weak
counter below the modulus. -/
theorem weak_attached_block {s : Sys} (hI : Inv s) {i c : Nat}
    (hf : field s.weak i = some c) (hc : c ≠ 0) :
    ∃ cb, s.heap c = some cb ∧ cb.weak_count = attached s.weak c ∧
      0 < cb.weak_count ∧ cb.weak_count < SIZE_MOD ∧ cb.shared_count + 1 < SIZE_MOD := by
  have hpos := attached_pos_of_field hf
  have hle := attached_le_live s.weak c
  have hle2 := attached_le_live s.shared c
  have hb := hI.bound
  have hB := hI.blocks c
  unfold BlockOk at hB
  split at hB
  · have := (hB.1 hc).2; omega
  · rename_i cb hcb
    exact ⟨cb, hcb, hB.2.2.1, by omega, by omega, by omega⟩

theorem Inv_empty : Inv Sys.empty :=
  ⟨fun a => by simp [BlockOk, Sys.empty, attached, lifetime], by simp [Sys.empty, live, SIZE_MOD]⟩

/-! ## The member functions preserve the invariant -/

theorem release_inv {s s1 : Sys} {i : Nat} (hI : Inv s)
    (h : SharedPTR.release i s = some s1) : Inv s1 := by
  rcases release_cases hI h with ⟨_, rfl⟩ | ⟨c, cb, hc0, hf, hcb, hpos, hcase⟩
  · exact hI
  · have hs : ∀ a, a ≠ 0 →
        attached (s.shared.set i (some 0)) a + (if c = a then 1 else 0)
          = attached s.shared a := by
      intro a ha
      have := attached_set hf 0 a
      simp only [if_neg (Ne.symm ha)] at this
      omega
    have hb : live (s.shared.set i (some 0)) + live s.weak < SIZE_MOD := by
      rw [live_set hf]; exact hI.bound
    rcases hcase with ⟨h1, rfl⟩ | ⟨h1, hw, rfl⟩ | ⟨h1, hw, rfl⟩
    · exact Inv_strong_dec hI hcb h1 _ hs hb _ (by simp [Sys.store, Sys.setShared])
        (fun x hx => by simp [Sys.store, Sys.setShared, hx])
    · exact Inv_strong_destroy hI hcb h1 hw _ hs hb _ (by simp [Sys.store, Sys.setShared])
        (fun x hx => by simp [Sys.store, Sys.setShared, hx])
    · exact Inv_strong_free hI hcb h1 hw _ hs hb _ (by simp [Sys.store, Sys.setShared, Sys.free])
        (fun x hx => by simp [Sys.store, Sys.setShared, Sys.free, hx])

/-- The tables after `release`. -/
theorem release_tables {s s1 : Sys} {i : Nat} (hI : Inv s)
    (h : SharedPTR.release i s = some s1) :
    field s1.shared i = some 0 ∧ (∀ j, j ≠ i → field s1.shared j = field s.shared j) ∧
      s1.weak = s.weak ∧ live s1.shared = live s.shared ∧
      s1.shared.length = s.shared.length := by
  rcases release_cases hI h with ⟨h0, rfl⟩ | ⟨c, cb, hc0, hf, hcb, hpos, hcase⟩
  · exact ⟨h0, fun _ _ => rfl, rfl, rfl, rfl⟩
  · have key : field (s.shared.set i (some 0)) i = some 0 ∧
        (∀ j, j ≠ i → field (s.shared.set i (some 0)) j = field s.shared j) ∧
        s.weak = s.weak ∧ live (s.shared.set i (some 0)) = live s.shared ∧
        (s.shared.set i (some 0)).length = s.shared.length :=
      ⟨field_set_self hf 0, fun j hj => field_set_ne _ (Ne.symm hj) _, rfl, live_set hf 0,
        by simp⟩
    rcases hcase with ⟨_, rfl⟩ | ⟨_, _, rfl⟩ | ⟨_, _, rfl⟩ <;> exact key

theorem alloc_some {s s1 : Sys} {a : Nat} {cb : ControlBlockTuple} (h : s.alloc a cb = some s1) :
    a ≠ 0 ∧ s.heap a = none ∧
      s1 = { s with heap := fun x => if x = a then some cb else s.heap x,
                    log := s.log ++ [Event.created a cb.ptr cb.del] } := by
  unfold Sys.alloc at h
  split at h
  · rename_i hc
    simp at h
    exact ⟨hc.1, hc.2, h.symm⟩
  · simp at h

theorem incShared_some {s s1 : Sys} {c : Nat} (h : s.incShared c = some s1) :
    ∃ cb, s.heap c = some cb ∧
      s1 = s.store c { cb with shared_count := incr cb.shared_count } := by
  unfold Sys.incShared at h
  split at h
  · simp at h
  · rename_i cb hcb
    simp at h
    exact ⟨cb, hcb, h.symm⟩

theorem incWeak_some {s s1 : Sys} {c : Nat} (h : s.incWeak c = some s1) :
    ∃ cb, s.heap c = some cb ∧
      s1 = s.store c { cb with weak_count := incr cb.weak_count } := by
  unfold Sys.incWeak at h
  split at h
  · simp at h
  · rename_i cb hcb
    simp at h
    exact ⟨cb, hcb, h.symm⟩

/-- A table that gains an attachment to `c` in place of a null member. -/
theorem attached_gain {sh sh' : List (Option Nat)} {c : Nat}
    (h : ∀ a, attached sh' a + (if 0 = a then 1 else 0) = attached sh a + (if c = a then 1 else 0))
    (a : Nat) (ha : a ≠ 0) : attached sh' a = attached sh a + (if c = a then 1 else 0) := by
  have := h a
  simp only [if_neg (Ne.symm ha)] at this
  omega

/-- `++shared_count()` for a handle that has just been attached to a block whose
object is alive. -/
theorem incShared_inv {s s' : Sys} (hI : Inv s) {c : Nat} (sh : List (Option Nat))
    (hc : c ≠ 0) (hpos : ∀ cb, s.heap c = some cb → 0 < cb.shared_count)
    (hs : ∀ a, a ≠ 0 → attached sh a = attached s.shared a + (if c = a then 1 else 0))
    (hb : live sh + live s.weak < SIZE_MOD)
    (h : ({ s with shared := sh } : Sys).incShared c = some s') : Inv s' := by
  obtain ⟨cb, hcb, rfl⟩ := incShared_some h
  have hcb' : s.heap c = some cb := hcb
  have hB := hI.blocks c
  simp only [BlockOk, hcb'] at hB
  have h1 := hs c hc
  have h2 := attached_le_live sh c
  simp only [if_true] at h1
  have hinc : incr cb.shared_count = cb.shared_count + 1 := incr_eq (by omega)
  exact Inv_strong_inc hI hcb' (hpos cb hcb') sh hs hb _
    (by simp [Sys.store, hinc]) (fun x hx => by simp [Sys.store, hx])

/-- `++weak_count()` for a handle that has just been attached to a block. -/
theorem incWeak_inv {s s' : Sys} (hI : Inv s) {c : Nat} (wk : List (Option Nat))
    (hc : c ≠ 0)
    (hs : ∀ a, a ≠ 0 → attached wk a = attached s.weak a + (if c = a then 1 else 0))
    (hb : live s.shared + live wk < SIZE_MOD)
    (h : ({ s with weak := wk } : Sys).incWeak c = some s') : Inv s' := by
  obtain ⟨cb, hcb, rfl⟩ := incWeak_some h
  have hcb' : s.heap c = some cb := hcb
  have hB := hI.blocks c
  simp only [BlockOk, hcb'] at hB
  have h1 := hs c hc
  have h2 := attached_le_live wk c
  simp only [if_true] at h1
  have hinc : incr cb.weak_count = cb.weak_count + 1 := incr_eq (by omega)
  exact Inv_weak_inc hI hcb' wk hs hb _
    (by simp [Sys.store, hinc]) (fun x hx => by simp [Sys.store, hx])

theorem newShared_null_inv {s : Sys} (hI : Inv s)
    (hb : live (s.newShared 0).shared + live (s.newShared 0).weak < SIZE_MOD) :
    Inv (s.newShared 0) :=
  Inv_same hI _ _ (fun a ha => by simp [attached_push, Ne.symm ha]) (fun _ _ => rfl) hb

theorem newWeak_null_inv {s : Sys} (hI : Inv s)
    (hb : live (s.newWeak 0).shared + live (s.newWeak 0).weak < SIZE_MOD) :
    Inv (s.newWeak 0) :=
  Inv_same hI _ _ (fun _ _ => rfl) (fun a ha => by simp [attached_push, Ne.symm ha]) hb

theorem ctor_ptr_del_inv {s s' : Sys} {p d a : Nat} (hI : Inv s)
    (h : SharedPTR.ctor_ptr_del p d a s = some s')
    (hb : live s'.shared + live s'.weak < SIZE_MOD) : Inv s' := by
  unfold SharedPTR.ctor_ptr_del at h
  split at h
  · rename_i hp
    cases hal : s.alloc a ⟨1, 0, p, d⟩ with
    | none => simp [hal] at h
    | some s1 =>
      simp [hal] at h
      obtain ⟨ha, hfree, rfl⟩ := alloc_some hal
      subst h
      exact Inv_adopt hI ha hfree hp _ (fun x _ => attached_push _ _ _) hb _
        (by simp [Sys.newShared]) (fun x hx => by simp [Sys.newShared, hx])
  · simp at h
    subst h
    exact newShared_null_inv hI hb

theorem ctor_ptr_inv {s s' : Sys} {p a : Nat} (hI : Inv s)
    (h : SharedPTR.ctor_ptr p a s = some s')
    (hb : live s'.shared + live s'.weak < SIZE_MOD) : Inv s' :=
  ctor_ptr_del_inv (d := TDeleter_default) hI h hb

theorem ctor_move_inv {s s' : Sys} {j : Nat} (hI : Inv s)
    (h : SharedPTR.ctor_move j s = some s')
    (hb : live s'.shared + live s'.weak < SIZE_MOD) : Inv s' := by
  unfold SharedPTR.ctor_move at h
  split at h
  · simp at h
  · rename_i c hc
    simp at h
    subst h
    refine Inv_same hI _ _ (fun a ha => ?_) (fun _ _ => rfl) hb
    have h1 := attached_set (field_push_old hc (some c)) 0 a
    have h2 := attached_push s.shared c a
    simp only [if_neg (Ne.symm ha)] at h1
    show attached ((s.shared ++ [some c]).set j (some 0)) a = attached s.shared a
    omega

theorem ctor_copy_inv {s s' : Sys} {j : Nat} (hI : Inv s)
    (h : SharedPTR.ctor_copy j s = some s')
    (hb : live s'.shared + live s'.weak < SIZE_MOD) : Inv s' := by
  unfold SharedPTR.ctor_copy at h
  split at h
  · simp at h
  · rename_i c hc
    split at h
    · rename_i hc0
      obtain ⟨cb, hcb, _, hpos, _⟩ := shared_attached_block hI hc hc0
      have hb' : live (s.shared ++ [some c]) + live s.weak < SIZE_MOD := by
        obtain ⟨cb', _, rfl⟩ := incShared_some h
        exact hb
      exact incShared_inv hI (s.shared ++ [some c]) hc0
        (fun cb' h' => by rw [hcb] at h'; cases h'; exact hpos)
        (fun a _ => attached_push _ _ _) hb' h
    · rename_i hc0
      simp at h hc0
      subst h; subst hc0
      exact newShared_null_inv hI hb

theorem ctor_weak_inv {s s' : Sys} {w : Nat} (hI : Inv s)
    (h : SharedPTR.ctor_weak w s = some s')
    (hb : live s'.shared + live s'.weak < SIZE_MOD) : Inv s' := by
  unfold SharedPTR.ctor_weak at h
  split at h
  · simp at h
  · rename_i c hc
    split at h
    · simp at h; subst h; exact newShared_null_inv hI hb
    · rename_i hc0
      split at h
      · simp at h
      · rename_i cb hcb
        split at h
        · rename_i hpos
          have hb' : live (s.shared ++ [some c]) + live s.weak < SIZE_MOD := by
            obtain ⟨cb', _, rfl⟩ := incShared_some h
            exact hb
          exact incShared_inv hI (s.shared ++ [some c]) hc0
            (fun cb' h' => by rw [hcb] at h'; cases h'; exact hpos)
            (fun a _ => attached_push _ _ _) hb' h
        · simp at h; subst h; exact newShared_null_inv hI hb

theorem shared_dtor_inv {s s' : Sys} {i : Nat} (hI : Inv s)
    (h : SharedPTR.dtor i s = some s') : Inv s' := by
  unfold SharedPTR.dtor at h
  cases hr : SharedPTR.release i s with
  | none => simp [hr] at h
  | some s1 =>
    simp [hr] at h
    subst h
    have hI1 := release_inv hI hr
    obtain ⟨hf, _, _, _, _⟩ := release_tables hI hr
    refine Inv_same hI1 _ _ (fun a ha => ?_) (fun _ _ => rfl) ?_
    · have := attached_set_none hf a
      simp only [if_neg (Ne.symm ha)] at this
      omega
    · have := live_set_none hf
      have := hI1.bound
      show live (s1.shared.set i none) + live s1.weak < SIZE_MOD
      omega

theorem assign_move_inv {s s' : Sys} {i j : Nat} (hI : Inv s)
    (h : SharedPTR.assign_move i j s = some s') : Inv s' := by
  unfold SharedPTR.assign_move at h
  split at h
  · split at h
    · rename_i hij
      cases hr : SharedPTR.release i s with
      | none => simp [hr] at h
      | some s1 =>
        simp only [hr] at h
        have hI1 := release_inv hI hr
        obtain ⟨hf, _, _, _, _⟩ := release_tables hI hr
        split at h
        · simp at h
        · rename_i c hc
          simp at h
          subst h
          refine Inv_same hI1 _ _ (fun a ha => ?_) (fun _ _ => rfl) ?_
          · have h1 := attached_set hf c a
            have hc' : field (s1.shared.set i (some c)) j = some c := by
              rw [field_set_ne _ hij]; exact hc
            have h2 := attached_set hc' 0 a
            simp only [if_neg (Ne.symm ha)] at h1 h2
            show attached ((s1.shared.set i (some c)).set j (some 0)) a = attached s1.shared a
            omega
          · have hc' : field (s1.shared.set i (some c)) j = some c := by
              rw [field_set_ne _ hij]; exact hc
            have := hI1.bound
            show live ((s1.shared.set i (some c)).set j (some 0)) + live s1.weak < SIZE_MOD
            rw [live_set hc', live_set hf]
            exact this
    · simp at h; subst h; exact hI
  · simp at h

theorem assign_copy_inv {s s' : Sys} {i j : Nat} (hI : Inv s)
    (h : SharedPTR.assign_copy i j s = some s') : Inv s' := by
  unfold SharedPTR.assign_copy at h
  split at h
  · split at h
    · rename_i hij
      cases hr : SharedPTR.release i s with
      | none => simp [hr] at h
      | some s1 =>
        simp only [hr] at h
        have hI1 := release_inv hI hr
        obtain ⟨hf, _, _, _, _⟩ := release_tables hI hr
        split at h
        · simp at h
        · rename_i c hc
          have hb' : live (s1.shared.set i (some c)) + live s1.weak < SIZE_MOD := by
            rw [live_set hf]; exact hI1.bound
          split at h
          · rename_i hc0
            obtain ⟨cb, hcb, _, hpos, _⟩ := shared_attached_block hI1 hc hc0
            exact incShared_inv hI1 (s1.shared.set i (some c)) hc0
              (fun cb' h' => by rw [hcb] at h'; cases h'; exact hpos)
              (attached_gain (attached_set hf c)) hb' h
          · simp at h
            subst h
            refine Inv_same hI1 _ _ (fun a ha => ?_) (fun _ _ => rfl) hb'
            have h1 := attached_gain (attached_set hf c) a ha
            rename_i hc0
            simp at hc0
            subst hc0
            simp only [if_neg (Ne.symm ha)] at h1
            exact h1
    · simp at h; subst h; exact hI
  · simp at h

theorem reset_inv {s s' : Sys} {i p a : Nat} (hI : Inv s)
    (h : SharedPTR.reset i p a s = some s') : Inv s' := by
  unfold SharedPTR.reset at h
  cases hr : SharedPTR.release i s with
  | none => simp [hr] at h
  | some s1 =>
    simp only [hr] at h
    have hI1 := release_inv hI hr
    obtain ⟨hf, _, _, _, _⟩ := release_tables hI hr
    split at h
    · rename_i hp
      cases hal : s1.alloc a ⟨1, 0, p, TDeleter_default⟩ with
      | none => simp [hal] at h
      | some s2 =>
        simp [hal] at h
        obtain ⟨ha, hfree, rfl⟩ := alloc_some hal
        subst h
        have hb' : live (s1.shared.set i (some a)) + live s1.weak < SIZE_MOD := by
          rw [live_set hf]; exact hI1.bound
        exact Inv_adopt hI1 ha hfree hp _ (attached_gain (attached_set hf a)) hb' _
          (by simp [Sys.setShared]) (fun x hx => by simp [Sys.setShared, hx])
    · simp at h; subst h; exact hI1

/-- What `decrement_weak_count` does, as a case distinction on the handle and on the
counters. In the last case the member keeps the address of the block. -/
theorem decrement_cases {s s1 : Sys} {i : Nat} (hI : Inv s)
    (h : WeakPtr.decrement_weak_count i s = some s1) :
    (field s.weak i = some 0 ∧ s1 = s) ∨
    ∃ c cb, c ≠ 0 ∧ field s.weak i = some c ∧ s.heap c = some cb ∧ 0 < cb.weak_count ∧
      ((cb.weak_count = 1 ∧ cb.shared_count = 0 ∧
          s1 = ((s.store c { cb with weak_count := 0 }).free c).setWeak i 0) ∨
       ((1 < cb.weak_count ∨ 0 < cb.shared_count) ∧
          s1 = s.store c { cb with weak_count := cb.weak_count - 1 })) := by
  unfold WeakPtr.decrement_weak_count at h
  split at h
  · simp at h
  · rename_i c hc
    split at h
    · rename_i hc0
      obtain ⟨cb, hcb, _, hpos, hlt, _⟩ := weak_attached_block hI hc hc0
      rw [hcb] at h
      simp only [decr_eq hpos hlt] at h
      refine Or.inr ⟨c, cb, hc0, hc, hcb, hpos, ?_⟩
      split at h
      · rename_i hn
        simp at h
        left
        have h1 : cb.weak_count = 1 := by omega
        refine ⟨h1, hn.2, ?_⟩
        rw [← h, hn.1]
      · rename_i hn
        simp at h
        right
        refine ⟨?_, h.symm⟩
        by_cases h0 : cb.shared_count = 0
        · left
          have : ¬ cb.weak_count - 1 = 0 := fun h' => hn ⟨h', h0⟩
          omega
        · right; omega
    · rename_i hc0
      simp at hc0 h
      subst hc0; subst h
      exact Or.inl ⟨hc, rfl⟩

/-- After `decrement_weak_count` the invariant holds as soon as the member of the
handle is overwritten (with null) or the handle is destroyed. -/
theorem decrement_inv {s s1 : Sys} {i : Nat} (hI : Inv s)
    (h : WeakPtr.decrement_weak_count i s = some s1) (x : Option Nat)
    (hx : x = none ∨ x = some 0) :
    Inv { s1 with weak := s1.weak.set i x } ∧ s1.shared = s.shared ∧
      (∃ c, field s1.weak i = some c) ∧
      (∀ j, j ≠ i → field s1.weak j = field s.weak j) ∧
      live s1.weak = live s.weak ∧ s1.weak.length = s.weak.length := by
  have hset : ∀ (wk : List (Option Nat)) (c : Nat), field wk i = some c →
      (∀ a, a ≠ 0 → attached (wk.set i x) a + (if c = a then 1 else 0) = attached wk a) ∧
      live (wk.set i x) ≤ live wk := by
    intro wk c hc
    rcases hx with rfl | rfl
    · exact ⟨fun a _ => attached_set_none hc a, by have := live_set_none hc; omega⟩
    · refine ⟨fun a ha => ?_, by rw [live_set hc]⟩
      have := attached_set hc 0 a
      simp only [if_neg (Ne.symm ha)] at this
      omega
  have hb := hI.bound
  rcases decrement_cases hI h with ⟨h0, rfl⟩ | ⟨c, cb, hc0, hf, hcb, hpos, hcase⟩
  · obtain ⟨h1, h2⟩ := hset s1.weak 0 h0
    refine ⟨Inv_same hI _ _ (fun _ _ => rfl) (fun a ha => ?_) (by omega), rfl, ⟨0, h0⟩,
      fun _ _ => rfl, rfl, rfl⟩
    have := h1 a ha
    simp only [if_neg (Ne.symm ha)] at this
    omega
  · rcases hcase with ⟨h1, h0, rfl⟩ | ⟨h1, rfl⟩
    · obtain ⟨h3, h4⟩ := hset s.weak c hf
      have hset2 : (s.weak.set i (some 0)).set i x = s.weak.set i x := by simp
      refine ⟨?_, rfl, ⟨0, field_set_self hf 0⟩, fun j hj => field_set_ne _ (Ne.symm hj) _,
        live_set hf 0, by simp [Sys.setWeak, Sys.free, Sys.store]⟩
      have := Inv_weak_free hI hcb h1 h0 (s.weak.set i x) h3 (by omega)
        (fun y => if y = c then none else s.heap y) (by simp) (fun y hy => by simp [hy])
      have heq : ({ ((s.store c { cb with weak_count := 0 }).free c).setWeak i 0 with
            weak := (((s.store c { cb with weak_count := 0 }).free c).setWeak i 0).weak.set i x }
            : Sys)
          = { s with heap := fun y => if y = c then none else s.heap y,
                     weak := s.weak.set i x, log := s.log ++ [Event.dealloc c] } := by
        simp only [Sys.setWeak, Sys.free, Sys.store, hset2]
        congr 1
        funext y
        by_cases hy : y = c <;> simp [hy]
      rw [heq]
      exact this
    · obtain ⟨h3, h4⟩ := hset s.weak c hf
      refine ⟨?_, rfl, ⟨c, hf⟩, fun _ _ => rfl, rfl, rfl⟩
      exact Inv_weak_dec hI hcb h1 (s.weak.set i x) h3 (by omega) _
        (by simp [Sys.store]) (fun y hy => by simp [Sys.store, hy])

theorem increment_some {s s1 : Sys} {i : Nat} (h : WeakPtr.increment_weak_count i s = some s1) :
    ∃ c, field s.weak i = some c ∧ (c = 0 ∧ s1 = s ∨ c ≠ 0 ∧ s.incWeak c = some s1) := by
  unfold WeakPtr.increment_weak_count at h
  split at h
  · simp at h
  · rename_i c hc
    refine ⟨c, hc, ?_⟩
    split at h
    · rename_i hc0
      exact Or.inr ⟨hc0, h⟩
    · rename_i hc0
      simp at hc0 h
      exact Or.inl ⟨hc0, h.symm⟩

/-- A new `WeakPtr` initialised with the member `c` of a live handle, followed by
`increment_weak_count()`. -/
theorem weak_ctor_inv {s s' : Sys} {c : Nat} (hI : Inv s)
    (h : WeakPtr.increment_weak_count s.weak.length (s.newWeak c) = some s')
    (hb : live s'.shared + live s'.weak < SIZE_MOD) : Inv s' := by
  obtain ⟨c', hf, hcase⟩ := increment_some h
  have hc' : c' = c := by
    have := field_push_new s.weak c
    simp only [Sys.newWeak] at hf
    rw [this] at hf
    exact (Option.some.inj hf).symm
  subst hc'
  rcases hcase with ⟨rfl, rfl⟩ | ⟨hc0, hinc⟩
  · exact newWeak_null_inv hI hb
  · have hb' : live s.shared + live (s.weak ++ [some c']) < SIZE_MOD := by
      obtain ⟨cb', _, rfl⟩ := incWeak_some hinc
      exact hb
    exact incWeak_inv hI (s.weak ++ [some c']) hc0 (fun a _ => attached_push _ _ _) hb' hinc

theorem weak_ctor_shared_inv {s s' : Sys} {j : Nat} (hI : Inv s)
    (h : WeakPtr.ctor_shared j s = some s')
    (hb : live s'.shared + live s'.weak < SIZE_MOD) : Inv s' := by
  unfold WeakPtr.ctor_shared at h
  split at h
  · simp at h
  · rename_i c hc
    exact weak_ctor_inv hI h hb

theorem weak_ctor_copy_inv {s s' : Sys} {j : Nat} (hI : Inv s)
    (h : WeakPtr.ctor_copy j s = some s')
    (hb : live s'.shared + live s'.weak < SIZE_MOD) : Inv s' := by
  unfold WeakPtr.ctor_copy at h
  split at h
  · simp at h
  · rename_i c hc
    exact weak_ctor_inv hI h hb

theorem weak_ctor_move_inv {s s' : Sys} {j : Nat} (hI : Inv s)
    (h : WeakPtr.ctor_move j s = some s')
    (hb : live s'.shared + live s'.weak < SIZE_MOD) : Inv s' := by
  unfold WeakPtr.ctor_move at h
  split at h
  · simp at h
  · rename_i c hc
    simp at h
    subst h
    refine Inv_same hI _ _ (fun _ _ => rfl) (fun a ha => ?_) hb
    have h1 := attached_set (field_push_old hc (some c)) 0 a
    have h2 := attached_push s.weak c a
    simp only [if_neg (Ne.symm ha)] at h1
    show attached ((s.weak ++ [some c]).set j (some 0)) a = attached s.weak a
    omega

theorem weak_dtor_inv {s s' : Sys} {i : Nat} (hI : Inv s)
    (h : WeakPtr.dtor i s = some s') : Inv s' := by
  unfold WeakPtr.dtor at h
  cases hr : WeakPtr.decrement_weak_count i s with
  | none => simp [hr] at h
  | some s1 =>
    simp [hr] at h
    subst h
    exact (decrement_inv hI hr none (Or.inl rfl)).1

/-- The assignment part shared by both `WeakPtr::operator=`: after
`decrement_weak_count()`, store `c` and run `increment_weak_count()`. -/
theorem weak_assign_tail_inv {s s1 s' : Sys} {i c : Nat} (hI : Inv s)
    (hr : WeakPtr.decrement_weak_count i s = some s1)
    (h : WeakPtr.increment_weak_count i (s1.setWeak i c) = some s') : Inv s' := by
  obtain ⟨hI0, _, ⟨c1, hf1⟩, _, _, _⟩ := decrement_inv hI hr (some 0) (Or.inr rfl)
  have hf0 : field (s1.weak.set i (some 0)) i = some 0 := field_set_self hf1 0
  have hset : (s1.weak.set i (some 0)).set i (some c) = s1.weak.set i (some c) := by simp
  have hgain := attached_gain (attached_set hf0 c)
  rw [hset] at hgain
  have hb' : live s1.shared + live (s1.weak.set i (some c)) < SIZE_MOD := by
    have := hI0.bound
    have h2 := live_set hf0 c
    rw [hset] at h2
    rw [h2]
    exact this
  obtain ⟨c', hf, hcase⟩ := increment_some h
  have hc' : c' = c := by
    have := field_set_self hf1 c
    simp only [Sys.setWeak] at hf
    rw [this] at hf
    exact (Option.some.inj hf).symm
  subst hc'
  rcases hcase with ⟨rfl, rfl⟩ | ⟨hc0, hinc⟩
  · refine Inv_same hI0 _ _ (fun _ _ => rfl) (fun a ha => ?_) hb'
    have := hgain a ha
    simp only [if_neg (Ne.symm ha)] at this
    exact this
  · exact incWeak_inv hI0 (s1.weak.set i (some c')) hc0 hgain hb' hinc

theorem weak_assign_shared_inv {s s' : Sys} {i j : Nat} (hI : Inv s)
    (h : WeakPtr.assign_shared i j s = some s') : Inv s' := by
  unfold WeakPtr.assign_shared at h
  cases hr : WeakPtr.decrement_weak_count i s with
  | none => simp [hr] at h
  | some s1 =>
    simp only [hr] at h
    split at h
    · simp at h
    · exact weak_assign_tail_inv hI hr h

theorem weak_assign_copy_inv {s s' : Sys} {i j : Nat} (hI : Inv s)
    (h : WeakPtr.assign_copy i j s = some s') : Inv s' := by
  unfold WeakPtr.assign_copy at h
  split at h
  · split at h
    · cases hr : WeakPtr.decrement_weak_count i s with
      | none => simp [hr] at h
      | some s1 =>
        simp only [hr] at h
        split at h
        · simp at h
        · exact weak_assign_tail_inv hI hr h
    · simp at h; subst h; exact hI
  · simp at h

/-- Every public operation preserves the invariant. -/
theorem step_inv {op : Op} {s s' : Sys} (hI : Inv s) (h : step op s = some s')
    (hb : live s'.shared + live s'.weak < SIZE_MOD) : Inv s' := by
  cases op with
  | shared_default =>
    simp [step, SharedPTR.ctor_default] at h; subst h; exact newShared_null_inv hI hb
  | shared_ptr p a => exact ctor_ptr_inv hI h hb
  | shared_ptr_del p d a => exact ctor_ptr_del_inv hI h hb
  | shared_move j => exact ctor_move_inv hI h hb
  | shared_copy j => exact ctor_copy_inv hI h hb
  | shared_weak w => exact ctor_weak_inv hI h hb
  | shared_dtor i => exact shared_dtor_inv hI h
  | shared_assign_move i j => exact assign_move_inv hI h
  | shared_assign_copy i j => exact assign_copy_inv hI h
  | shared_reset i p a => exact reset_inv hI h
  | shared_assign_ptr i p a => exact reset_inv hI h
  | make_shared p a =>
    simp only [step, make_shared] at h
    split at h
    · exact ctor_ptr_inv hI h hb
    · simp at h
  | weak_default =>
    simp [step, WeakPtr.ctor_default] at h; subst h; exact newWeak_null_inv hI hb
  | weak_shared j => exact weak_ctor_shared_inv hI h hb
  | weak_copy w => exact weak_ctor_copy_inv hI h hb
  | weak_move w => exact weak_ctor_move_inv hI h hb
  | weak_dtor w => exact weak_dtor_inv hI h
  | weak_assign_shared w j => exact weak_assign_shared_inv hI h
  | weak_assign_copy w v => exact weak_assign_copy_inv hI h
  | weak_lock w => exact ctor_weak_inv hI h hb

/-- The invariant holds in every reachable state. -/
theorem reachable_inv {s : Sys} (h : Reachable s) : Inv s := by
  induction h with
  | init => exact Inv_empty
  | step op s s' _ hstep hb ih => exact step_inv ih hstep hb

theorem reachable_exec {ops : List Op} : ∀ {s s' : Sys}, Reachable s → exec ops s = some s' →
    Reachable s' := by
  induction ops with
  | nil =>
    intro s s' hs h
    simp [exec] at h
    subst h
    exact hs
  | cons op ops ih =>
    intro s s' hs h
    simp only [exec] at h
    split at h
    · simp at h
    · rename_i s1 hstep
      split at h
      · rename_i hb
        exact ih (Reachable.step op s s1 hs hstep hb) h
      · simp at h

/-- The state after a list of calls that can be executed is reachable. -/
theorem reachable_after (ops : List Op) (h : (exec ops Sys.empty).isSome = true) :
    Reachable (after ops) := by
  cases hx : exec ops Sys.empty with
  | none => simp [hx] at h
  | some s' =>
    have : after ops = s' := by simp [after, hx]
    rw [this]
    exact reachable_exec Reachable.init hx

/-- C1: in every reachable state the strong counter of every allocated control block
is the number of `SharedPTR` objects attached to it, and its weak counter is the number
of `WeakPtr` objects attached to it. -/
theorem C1_counts_equal_attached_handles (s : Sys) (h : Reachable s) (a : Nat)
    (cb : ControlBlockTuple) (hcb : s.heap a = some cb) :
    cb.shared_count = attached s.shared a ∧ cb.weak_count = attached s.weak a := by
  have hB := (reachable_inv h).blocks a
  simp only [BlockOk, hcb] at hB
  exact ⟨hB.2.1, hB.2.2.1⟩

/-- C1 at the state after adopting an object, watching it and copying the handle. -/
theorem C1_counts_equal_attached_handles_witness :
    Reachable (after [Op.shared_ptr 7 100, Op.weak_shared 0, Op.shared_copy 0]) ∧
    (after [Op.shared_ptr 7 100, Op.weak_shared 0, Op.shared_copy 0]).heap 100
      = some ⟨2, 1, 7, 0⟩ ∧
    ((2 : Nat) = attached (after [Op.shared_ptr 7 100, Op.weak_shared 0, Op.shared_copy 0]).shared 100
      ∧ (1 : Nat) = attached (after [Op.shared_ptr 7 100, Op.weak_shared 0, Op.shared_copy 0]).weak 100) :=
  ⟨reachable_after _ (by decide), by decide,
    C1_counts_equal_attached_handles _ (reachable_after _ (by decide)) 100 ⟨2, 1, 7, 0⟩ (by decide)⟩

/-! ## The log -/

theorem policies_append (l1 l2 : List Event) : policies (l1 ++ l2) = policies l1 ++ policies l2 := by
  simp [policies]

/-- The log after `release`. -/
theorem release_log {s s1 : Sys} {i : Nat} (hI : Inv s)
    (h : SharedPTR.release i s = some s1) :
    ∃ l, s1.log = s.log ++ fires i s ++ l ∧ policies l = [] := by
  rcases release_cases hI h with ⟨h0, rfl⟩ | ⟨c, cb, hc0, hf, hcb, hpos, hcase⟩
  · exact ⟨[], by simp [fires, h0], rfl⟩
  · rcases hcase with ⟨h1, rfl⟩ | ⟨h1, hw, rfl⟩ | ⟨h1, hw, rfl⟩
    · refine ⟨[], ?_, rfl⟩
      have : cb.shared_count ≠ 1 := by omega
      simp [fires, hf, hc0, hcb, this, Sys.setShared, Sys.store]
    · refine ⟨[], ?_, rfl⟩
      simp [fires, hf, hc0, hcb, h1, Sys.setShared, Sys.store]
    · refine ⟨[Event.dealloc c], ?_, rfl⟩
      simp [fires, hf, hc0, hcb, h1, Sys.setShared, Sys.store, Sys.free]

theorem release_policies {s s1 : Sys} {i : Nat} (hI : Inv s)
    (h : SharedPTR.release i s = some s1) :
    policies s1.log = policies s.log ++ fires i s := by
  obtain ⟨l, hl, hp⟩ := release_log hI h
  have hf : policies (fires i s) = fires i s := by
    unfold fires
    repeat' split
    all_goals simp [policies, Event.isPolicy]
  rw [hl, policies_append, policies_append, hp, hf]
  simp

theorem alloc_policies {s s1 : Sys} {a : Nat} {cb : ControlBlockTuple}
    (h : s.alloc a cb = some s1) : policies s1.log = policies s.log := by
  obtain ⟨_, _, rfl⟩ := alloc_some h
  simp [policies, Event.isPolicy]

theorem incShared_log {s s1 : Sys} {c : Nat} (h : s.incShared c = some s1) : s1.log = s.log := by
  obtain ⟨_, _, rfl⟩ := incShared_some h
  rfl

theorem incWeak_log {s s1 : Sys} {c : Nat} (h : s.incWeak c = some s1) : s1.log = s.log := by
  obtain ⟨_, _, rfl⟩ := incWeak_some h
  rfl

theorem increment_log {s s1 : Sys} {i : Nat}
    (h : WeakPtr.increment_weak_count i s = some s1) : s1.log = s.log := by
  obtain ⟨c, _, ⟨_, rfl⟩ | ⟨_, h'⟩⟩ := increment_some h
  · rfl
  · exact incWeak_log h'

theorem decrement_policies {s s1 : Sys} {i : Nat}
    (h : WeakPtr.decrement_weak_count i s = some s1) : policies s1.log = policies s.log := by
  unfold WeakPtr.decrement_weak_count at h
  split at h
  · simp at h
  · split at h
    · split at h
      · simp at h
      · simp only at h
        split at h <;> simp at h <;> subst h <;>
          simp [policies, Event.isPolicy, Sys.setWeak, Sys.free, Sys.store]
    · simp at h; subst h; rfl

/-- The calls of the deleter made by one public operation: exactly the one of its
`release()`, if it runs `release()`. -/
theorem step_policies {op : Op} {s s' : Sys} (hI : Inv s) (h : step op s = some s') :
    policies s'.log = policies s.log ++
      (match released op with
       | some i => fires i s
       | none => []) := by
  cases op with
  | shared_default =>
    simp [step, SharedPTR.ctor_default] at h; subst h; simp [released, Sys.newShared]
  | shared_ptr p a =>
    simp only [step, SharedPTR.ctor_ptr] at h
    split at h
    · cases hal : s.alloc a ⟨1, 0, p, TDeleter_default⟩ with
      | none => simp [hal] at h
      | some s1 =>
        simp [hal] at h; subst h
        simpa [released, Sys.newShared] using alloc_policies hal
    · simp at h; subst h; simp [released, Sys.newShared]
  | shared_ptr_del p d a =>
    simp only [step, SharedPTR.ctor_ptr_del] at h
    split at h
    · cases hal : s.alloc a ⟨1, 0, p, d⟩ with
      | none => simp [hal] at h
      | some s1 =>
        simp [hal] at h; subst h
        simpa [released, Sys.newShared] using alloc_policies hal
    · simp at h; subst h; simp [released, Sys.newShared]
  | make_shared p a =>
    simp only [step, make_shared, SharedPTR.ctor_ptr] at h
    split at h
    · cases hal : s.alloc a ⟨1, 0, p, TDeleter_default⟩ with
      | none => simp [hal] at h
      | some s1 =>
        simp [hal] at h; subst h
        simpa [released, Sys.newShared] using alloc_policies hal
    · simp at h
  | shared_move j =>
    simp only [step, SharedPTR.ctor_move] at h
    split at h
    · simp at h
    · simp at h; subst h; simp [released, Sys.newShared, Sys.setShared]
  | shared_copy j =>
    simp only [step, SharedPTR.ctor_copy] at h
    split at h
    · simp at h
    · split at h
      · have := incShared_log h
        simp [released, this, Sys.newShared]
      · simp at h; subst h; simp [released, Sys.newShared]
  | shared_weak w =>
    simp only [step, SharedPTR.ctor_weak] at h
    split at h
    · simp at h
    · split at h
      · simp at h; subst h; simp [released, Sys.newShared]
      · split at h
        · simp at h
        · split at h
          · have := incShared_log h
            simp [released, this, Sys.newShared]
          · simp at h; subst h; simp [released, Sys.newShared]
  | weak_lock w =>
    simp only [step, WeakPtr.lock, SharedPTR.ctor_weak] at h
    split at h
    · simp at h
    · split at h
      · simp at h; subst h; simp [released, Sys.newShared]
      · split at h
        · simp at h
        · split at h
          · have := incShared_log h
            simp [released, this, Sys.newShared]
          · simp at h; subst h; simp [released, Sys.newShared]
  | shared_dtor i =>
    simp only [step, SharedPTR.dtor] at h
    cases hr : SharedPTR.release i s with
    | none => simp [hr] at h
    | some s1 =>
      simp [hr] at h; subst h
      simpa [released] using release_policies hI hr
  | shared_assign_move i j =>
    simp only [step, SharedPTR.assign_move] at h
    split at h
    · split at h
      · rename_i hij
        cases hr : SharedPTR.release i s with
        | none => simp [hr] at h
        | some s1 =>
          simp only [hr] at h
          split at h
          · simp at h
          · simp at h; subst h
            simpa [released, hij, Sys.setShared] using release_policies hI hr
      · rename_i hij
        simp at h; subst h
        simp [released, hij]
    · simp at h
  | shared_assign_copy i j =>
    simp only [step, SharedPTR.assign_copy] at h
    split at h
    · split at h
      · rename_i hij
        cases hr : SharedPTR.release i s with
        | none => simp [hr] at h
        | some s1 =>
          simp only [hr] at h
          split at h
          · simp at h
          · split at h
            · have := incShared_log h
              simpa [released, hij, this, Sys.setShared] using release_policies hI hr
            · simp at h; subst h
              simpa [released, hij, Sys.setShared] using release_policies hI hr
      · rename_i hij
        simp at h; subst h
        simp [released, hij]
    · simp at h
  | shared_reset i p a =>
    simp only [step, SharedPTR.reset] at h
    cases hr : SharedPTR.release i s with
    | none => simp [hr] at h
    | some s1 =>
      simp only [hr] at h
      split at h
      · cases hal : s1.alloc a ⟨1, 0, p, TDeleter_default⟩ with
        | none => simp [hal] at h
        | some s2 =>
          simp [hal] at h; subst h
          have := alloc_policies hal
          simpa [released, Sys.setShared, this] using release_policies hI hr
      · simp at h; subst h
        simpa [released] using release_policies hI hr
  | shared_assign_ptr i p a =>
    simp only [step, SharedPTR.assign_ptr, SharedPTR.reset] at h
    cases hr : SharedPTR.release i s with
    | none => simp [hr] at h
    | some s1 =>
      simp only [hr] at h
      split at h
      · cases hal : s1.alloc a ⟨1, 0, p, TDeleter_default⟩ with
        | none => simp [hal] at h
        | some s2 =>
          simp [hal] at h; subst h
          have := alloc_policies hal
          simpa [released, Sys.setShared, this] using release_policies hI hr
      · simp at h; subst h
        simpa [released] using release_policies hI hr
  | weak_default =>
    simp [step, WeakPtr.ctor_default] at h; subst h; simp [released, Sys.newWeak]
  | weak_shared j =>
    simp only [step, WeakPtr.ctor_shared] at h
    split at h
    · simp at h
    · have := increment_log h
      simp [released, this, Sys.newWeak]
  | weak_copy j =>
    simp only [step, WeakPtr.ctor_copy] at h
    split at h
    · simp at h
    · have := increment_log h
      simp [released, this, Sys.newWeak]
  | weak_move j =>
    simp only [step, WeakPtr.ctor_move] at h
    split at h
    · simp at h
    · simp at h; subst h; simp [released, Sys.newWeak, Sys.setWeak]
  | weak_dtor i =>
    simp only [step, WeakPtr.dtor] at h
    cases hr : WeakPtr.decrement_weak_count i s with
    | none => simp [hr] at h
    | some s1 =>
      simp [hr] at h; subst h
      simpa [released] using decrement_policies hr
  | weak_assign_shared i j =>
    simp only [step, WeakPtr.assign_shared] at h
    cases hr : WeakPtr.decrement_weak_count i s with
    | none => simp [hr] at h
    | some s1 =>
      simp only [hr] at h
      split at h
      · simp at h
      · have := increment_log h
        simpa [released, this, Sys.setWeak] using decrement_policies hr
  | weak_assign_copy i j =>
    simp only [step, WeakPtr.assign_copy] at h
    split at h
    · split at h
      · cases hr : WeakPtr.decrement_weak_count i s with
        | none => simp [hr] at h
        | some s1 =>
          simp only [hr] at h
          split at h
          · simp at h
          · have := increment_log h
            simpa [released, this, Sys.setWeak] using decrement_policies hr
      · simp at h; subst h; simp [released]
    · simp at h

/-- The possible lifetimes of the block at `a` in a state that satisfies the
invariant, together with what they say about the state. -/
theorem lifetime_shape {s : Sys} (hI : Inv s) (a : Nat) :
    (lifetime a s.log = [] ∧ s.heap a = none) ∨
    ∃ p d, p ≠ 0 ∧
      ((lifetime a s.log = [Event.created a p d] ∧ 0 < attached s.shared a ∧
          ∃ cb, s.heap a = some cb ∧ cb.ptr = p ∧ cb.del = d ∧ 0 < cb.shared_count) ∨
       (lifetime a s.log = [Event.created a p d, Event.policy a d p] ∧
          attached s.shared a = 0 ∧ 0 < attached s.weak a ∧
          ∃ cb, s.heap a = some cb ∧ cb.ptr = 0 ∧ cb.del = d ∧ cb.shared_count = 0) ∨
       (lifetime a s.log = [Event.created a p d, Event.policy a d p, Event.dealloc a] ∧
          (a ≠ 0 → attached s.shared a = 0 ∧ attached s.weak a = 0) ∧ s.heap a = none)) := by
  have hB := hI.blocks a
  unfold BlockOk at hB
  split at hB
  · rename_i hnone
    rcases hB.2 with h0 | ⟨p, d, hp0, hl⟩
    · exact Or.inl ⟨h0, hnone⟩
    · exact Or.inr ⟨p, d, hp0, Or.inr (Or.inr ⟨hl, hB.1, hnone⟩)⟩
  · rename_i cb hcb
    obtain ⟨ha, hs, hw, hpos, h1, h2⟩ := hB
    by_cases h0 : cb.shared_count = 0
    · obtain ⟨hp, p, hp0, hl⟩ := h2 h0
      exact Or.inr ⟨p, cb.del, hp0, Or.inr (Or.inl
        ⟨hl, by omega, by omega, cb, hcb, hp, rfl, h0⟩)⟩
    · obtain ⟨hp, hl⟩ := h1 (by omega)
      exact Or.inr ⟨cb.ptr, cb.del, hp, Or.inl ⟨hl, by omega, cb, hcb, rfl, rfl, by omega⟩⟩

/-- The block after a `release` through an attached handle. -/
theorem release_block {s s1 : Sys} {i c : Nat} {cb : ControlBlockTuple} (hI : Inv s)
    (h : SharedPTR.release i s = some s1) (hf : field s.shared i = some c) (hc : c ≠ 0)
    (hcb : s.heap c = some cb) :
    (1 < cb.shared_count ∧ s1.log = s.log ∧
        s1.heap c = some { cb with shared_count := cb.shared_count - 1 }) ∨
    (cb.shared_count = 1 ∧ 0 < cb.weak_count ∧
        s1.log = s.log ++ [Event.policy c cb.del cb.ptr] ∧
        s1.heap c = some { cb with shared_count := 0, ptr := 0 }) ∨
    (cb.shared_count = 1 ∧ cb.weak_count = 0 ∧
        s1.log = s.log ++ [Event.policy c cb.del cb.ptr] ++ [Event.dealloc c] ∧
        s1.heap c = none) := by
  rcases release_cases hI h with ⟨h0, _⟩ | ⟨c', cb', hc0, hf', hcb', hpos, hcase⟩
  · rw [hf] at h0; exact absurd (Option.some.inj h0) hc
  · rw [hf] at hf'
    cases Option.some.inj hf'
    rw [hcb] at hcb'
    cases Option.some.inj hcb'
    rcases hcase with ⟨h1, rfl⟩ | ⟨h1, hw, rfl⟩ | ⟨h1, hw, rfl⟩
    · exact Or.inl ⟨h1, rfl, by simp [Sys.setShared, Sys.store]⟩
    · exact Or.inr (Or.inl ⟨h1, hw, rfl, by simp [Sys.setShared, Sys.store]⟩)
    · exact Or.inr (Or.inr ⟨h1, hw, rfl, by simp [Sys.setShared, Sys.store, Sys.free]⟩)

/-- The other blocks and the weak table after a `release`. -/
theorem release_frame {s s1 : Sys} {i c : Nat} (hI : Inv s)
    (h : SharedPTR.release i s = some s1) (hf : field s.shared i = some c) :
    ∀ x, x ≠ c → s1.heap x = s.heap x := by
  intro x hx
  rcases release_cases hI h with ⟨h0, rfl⟩ | ⟨c', cb', hc0, hf', hcb', hpos, hcase⟩
  · rfl
  · rw [hf] at hf'
    cases Option.some.inj hf'
    rcases hcase with ⟨h1, rfl⟩ | ⟨h1, hw, rfl⟩ | ⟨h1, hw, rfl⟩ <;>
      simp [Sys.setShared, Sys.store, Sys.free, hx]

/-- C2: in every reachable state and for the block most recently allocated at any
address (one adoption of an object), the deleter has been called at most once; a call
applies the stored deleter to the adopted object; it has been called exactly once as
soon as no `SharedPTR` is attached to the block any more and not at all before. A
`release()` through a handle attached to a block calls the deleter exactly when the
strong counter of the block is 1, which it takes to 0, and a public operation calls
the deleter only through the `release()` it runs, if it runs one. -/
theorem C2_policy_once_at_last_release (s : Sys) (h : Reachable s) :
    (∀ a, ((lifetime a s.log).filter Event.isPolicy).length ≤ 1) ∧
    (∀ a p d rest, lifetime a s.log = Event.created a p d :: rest →
        ∀ e ∈ rest, e.isPolicy = true → e = Event.policy a d p) ∧
    (∀ a, a ≠ 0 → lifetime a s.log ≠ [] →
        (((lifetime a s.log).filter Event.isPolicy).length = 1 ↔ attached s.shared a = 0)) ∧
    (∀ i s1 c cb, SharedPTR.release i s = some s1 → field s.shared i = some c → c ≠ 0 →
        s.heap c = some cb →
        (cb.shared_count = 1 →
          policies s1.log = policies s.log ++ [Event.policy c cb.del cb.ptr] ∧
          (s1.heap c = none ∨ ∃ cb', s1.heap c = some cb' ∧ cb'.shared_count = 0)) ∧
        (cb.shared_count ≠ 1 →
          policies s1.log = policies s.log ∧
          ∃ cb', s1.heap c = some cb' ∧ 0 < cb'.shared_count)) ∧
    (∀ i s1, SharedPTR.release i s = some s1 → field s.shared i = some 0 → s1 = s) ∧
    (∀ op s', step op s = some s' →
        policies s'.log = policies s.log ++
          (match released op with
           | some i => fires i s
           | none => [])) := by
  have hI := reachable_inv h
  refine ⟨fun a => ?_, fun a p d rest hl e he hp => ?_, fun a ha hne => ?_,
    fun i s1 c cb hr hf hc hcb => ?_, fun i s1 hr hf => ?_, fun op s' hs => step_policies hI hs⟩
  · rcases lifetime_shape hI a with ⟨hl, _⟩ | ⟨p, d, _, ⟨hl, _⟩ | ⟨hl, _⟩ | ⟨hl, _⟩⟩ <;>
      simp [hl, Event.isPolicy]
  · rcases lifetime_shape hI a with ⟨h0, _⟩ | ⟨p', d', _, ⟨hl', _⟩ | ⟨hl', _⟩ | ⟨hl', _⟩⟩
    · rw [h0] at hl; cases hl
    · rw [hl'] at hl; cases hl; simp at he
    · rw [hl'] at hl; cases hl
      simp at he; exact he
    · rw [hl'] at hl; cases hl
      simp at he
      rcases he with rfl | rfl
      · rfl
      · simp [Event.isPolicy] at hp
  · rcases lifetime_shape hI a with ⟨h0, _⟩ | ⟨p, d, _, ⟨hl, hpos, _⟩ | ⟨hl, h0, _⟩ | ⟨hl, h0, _⟩⟩
    · exact absurd h0 hne
    · simp [hl, Event.isPolicy]; omega
    · simp [hl, Event.isPolicy, h0]
    · simp [hl, Event.isPolicy, (h0 ha).1]
  · rcases release_block hI hr hf hc hcb with ⟨h1, hl, hh⟩ | ⟨h1, hw, hl, hh⟩ | ⟨h1, hw, hl, hh⟩
    · refine ⟨fun h' => by omega, fun _ => ⟨by rw [hl], _, hh, ?_⟩⟩
      show 0 < cb.shared_count - 1
      omega
    · refine ⟨fun _ => ⟨?_, Or.inr ⟨_, hh, rfl⟩⟩, fun h' => absurd h1 h'⟩
      rw [hl, policies_append]
      simp [policies, Event.isPolicy]
    · refine ⟨fun _ => ⟨?_, Or.inl hh⟩, fun h' => absurd h1 h'⟩
      rw [hl, policies_append, policies_append]
      simp [policies, Event.isPolicy]
  · rcases release_cases hI hr with ⟨_, rfl⟩ | ⟨c, cb, hc0, hf', _⟩
    · rfl
    · rw [hf] at hf'
      exact absurd (Option.some.inj hf').symm hc0

/-- C2 after adopting an object, watching it and destroying the only `SharedPTR`. -/
theorem C2_policy_once_at_last_release_witness :
    Reachable (after [Op.shared_ptr 7 100, Op.weak_shared 0, Op.shared_dtor 0]) ∧
    ((lifetime 100 (after [Op.shared_ptr 7 100, Op.weak_shared 0, Op.shared_dtor 0]).log).filter
        Event.isPolicy).length ≤ 1 ∧
    (((lifetime 100 (after [Op.shared_ptr 7 100, Op.weak_shared 0, Op.shared_dtor 0]).log).filter
        Event.isPolicy).length = 1 ↔
      attached (after [Op.shared_ptr 7 100, Op.weak_shared 0, Op.shared_dtor 0]).shared 100 = 0) :=
  ⟨reachable_after _ (by decide),
    (C2_policy_once_at_last_release _ (reachable_after _ (by decide))).1 100,
    (C2_policy_once_at_last_release _ (reachable_after _ (by decide))).2.2.1 100
      (by decide) (by decide)⟩

/-- The block and the log after a `decrement_weak_count` through an attached handle. -/
theorem decrement_block {s s1 : Sys} {i c : Nat} {cb : ControlBlockTuple} (hI : Inv s)
    (h : WeakPtr.decrement_weak_count i s = some s1) (hf : field s.weak i = some c)
    (hc : c ≠ 0) (hcb : s.heap c = some cb) :
    (cb.weak_count = 1 ∧ cb.shared_count = 0 ∧ s1.log = s.log ++ [Event.dealloc c] ∧
        s1.heap c = none ∧ field s1.weak i = some 0) ∨
    ((1 < cb.weak_count ∨ 0 < cb.shared_count) ∧ 0 < cb.weak_count ∧ s1.log = s.log ∧
        s1.heap c = some { cb with weak_count := cb.weak_count - 1 } ∧
        field s1.weak i = some c) := by
  rcases decrement_cases hI h with ⟨h0, _⟩ | ⟨c', cb', hc0, hf', hcb', hpos, hcase⟩
  · rw [hf] at h0; exact absurd (Option.some.inj h0) hc
  · rw [hf] at hf'
    cases Option.some.inj hf'
    rw [hcb] at hcb'
    cases Option.some.inj hcb'
    rcases hcase with ⟨h1, h0, rfl⟩ | ⟨h1, rfl⟩
    · exact Or.inl ⟨h1, h0, rfl, by simp [Sys.setWeak, Sys.store, Sys.free],
        field_set_self hf 0⟩
    · exact Or.inr ⟨h1, hpos, rfl, by simp [Sys.store], hf⟩

/-! ## Observers -/

theorem shared_use_count_attached {s : Sys} {i c : Nat} {cb : ControlBlockTuple}
    (hf : field s.shared i = some c) (hc : c ≠ 0) (hcb : s.heap c = some cb) :
    SharedPTR.use_count i s = some cb.shared_count := by
  simp [SharedPTR.use_count, hf, hc, hcb]

theorem shared_get_attached {s : Sys} {i c : Nat} {cb : ControlBlockTuple}
    (hf : field s.shared i = some c) (hc : c ≠ 0) (hcb : s.heap c = some cb) :
    SharedPTR.get i s = some cb.ptr := by
  simp [SharedPTR.get, hf, hc, hcb]

theorem shared_toBool_attached {s : Sys} {i c : Nat} {cb : ControlBlockTuple}
    (hf : field s.shared i = some c) (hc : c ≠ 0) (hcb : s.heap c = some cb) :
    SharedPTR.toBool i s = some (cb.ptr != 0) := by
  simp [SharedPTR.toBool, shared_get_attached hf hc hcb]

theorem shared_empty_observers {s : Sys} {i : Nat} (hf : field s.shared i = some 0) :
    SharedPTR.get i s = some 0 ∧ SharedPTR.use_count i s = some 0 ∧
      SharedPTR.toBool i s = some false := by
  simp [SharedPTR.toBool, SharedPTR.get, SharedPTR.use_count, hf]

/-- C4: in a reachable state `lock()` on a live `WeakPtr` returns; the new `SharedPTR` is non-empty exactly when the `WeakPtr` is
attached to a block whose strong counter is positive. Then it is attached to that
block, whose strong counter grows by exactly 1 while its weak counter, its other
members and all other blocks are unchanged; otherwise it is empty, with `get()` null
and `use_count()` 0, and no block changes. -/
theorem C4_lock_promotes_iff_alive (s : Sys) (h : Reachable s) (w c : Nat)
    (hf : field s.weak w = some c) :
    ∃ s', WeakPtr.lock w s = some s' ∧ s'.weak = s.weak ∧ s'.log = s.log ∧
      (SharedPTR.toBool s.shared.length s' = some true ↔
        (c ≠ 0 ∧ ∃ cb, s.heap c = some cb ∧ 0 < cb.shared_count)) ∧
      ((c ≠ 0 ∧ ∃ cb, s.heap c = some cb ∧ 0 < cb.shared_count ∧
          s'.shared = s.shared ++ [some c] ∧
          s'.heap c = some { cb with shared_count := cb.shared_count + 1 } ∧
          (∀ x, x ≠ c → s'.heap x = s.heap x) ∧
          SharedPTR.use_count s.shared.length s' = some (cb.shared_count + 1)) ∨
       ((c = 0 ∨ ∃ cb, s.heap c = some cb ∧ cb.shared_count = 0) ∧
          s'.shared = s.shared ++ [some 0] ∧ s'.heap = s.heap ∧
          SharedPTR.get s.shared.length s' = some 0 ∧
          SharedPTR.use_count s.shared.length s' = some 0)) := by
  have hI := reachable_inv h
  have hempty : ∀ (hcond : c = 0 ∨ ∃ cb, s.heap c = some cb ∧ cb.shared_count = 0),
      (SharedPTR.toBool s.shared.length (s.newShared 0) = some true ↔
        (c ≠ 0 ∧ ∃ cb, s.heap c = some cb ∧ 0 < cb.shared_count)) ∧
      ((c ≠ 0 ∧ ∃ cb, s.heap c = some cb ∧ 0 < cb.shared_count ∧
          (s.newShared 0).shared = s.shared ++ [some c] ∧
          (s.newShared 0).heap c = some { cb with shared_count := cb.shared_count + 1 } ∧
          (∀ x, x ≠ c → (s.newShared 0).heap x = s.heap x) ∧
          SharedPTR.use_count s.shared.length (s.newShared 0) = some (cb.shared_count + 1)) ∨
       ((c = 0 ∨ ∃ cb, s.heap c = some cb ∧ cb.shared_count = 0) ∧
          (s.newShared 0).shared = s.shared ++ [some 0] ∧ (s.newShared 0).heap = s.heap ∧
          SharedPTR.get s.shared.length (s.newShared 0) = some 0 ∧
          SharedPTR.use_count s.shared.length (s.newShared 0) = some 0)) := by
    intro hcond
    have hfn : field (s.newShared 0).shared s.shared.length = some 0 := field_push_new _ _
    obtain ⟨hg, hu, hb'⟩ := shared_empty_observers hfn
    refine ⟨?_, Or.inr ⟨hcond, rfl, rfl, hg, hu⟩⟩
    rw [hb']
    constructor
    · intro h'; simp at h'
    · rintro ⟨hc0, cb, hcb, hpos⟩
      rcases hcond with rfl | ⟨cb', hcb', h0⟩
      · exact absurd rfl hc0
      · rw [hcb] at hcb'; cases Option.some.inj hcb'; omega
  by_cases hc0 : c = 0
  · refine ⟨s.newShared 0, ?_, rfl, rfl, hempty (Or.inl hc0)⟩
    simp [WeakPtr.lock, SharedPTR.ctor_weak, hf, hc0]
  · obtain ⟨cb, hcb, _, _, _, hlt⟩ := weak_attached_block hI hf hc0
    by_cases hpos : 0 < cb.shared_count
    · have hB := hI.blocks c
      simp only [BlockOk, hcb] at hB
      have hle := attached_le_live s.shared c
      have hinc : incr cb.shared_count = cb.shared_count + 1 := incr_eq (by omega)
      have hfn : field ((s.newShared c).store c
          { cb with shared_count := cb.shared_count + 1 }).shared s.shared.length = some c :=
        field_push_new _ _
      have hcb' : ((s.newShared c).store c
          { cb with shared_count := cb.shared_count + 1 }).heap c
            = some { cb with shared_count := cb.shared_count + 1 } := by
        simp [Sys.store]
      have hp := (hB.2.2.2.2.1 hpos).1
      refine ⟨(s.newShared c).store c { cb with shared_count := cb.shared_count + 1 },
        ?_, rfl, rfl, ?_, Or.inl ⟨hc0, cb, hcb, hpos, rfl, hcb', ?_,
          shared_use_count_attached hfn hc0 hcb'⟩⟩
      · simp [WeakPtr.lock, SharedPTR.ctor_weak, hf, hc0, hcb, hpos, Sys.incShared,
          Sys.newShared, hinc]
      · rw [shared_toBool_attached hfn hc0 hcb']
        simp [hp, hc0]
        exact ⟨cb, hcb, hpos⟩
      · intro x hx
        simp [Sys.store, Sys.newShared, hx]
    · have h0 : cb.shared_count = 0 := by omega
      refine ⟨s.newShared 0, ?_, rfl, rfl, hempty (Or.inr ⟨cb, hcb, h0⟩)⟩
      simp [WeakPtr.lock, SharedPTR.ctor_weak, hf, hc0, hcb, h0]

/-- C4 for a `WeakPtr` that watches a block with one `SharedPTR`. -/
theorem C4_lock_promotes_iff_alive_witness :
    Reachable (after [Op.shared_ptr 7 100, Op.weak_shared 0]) ∧
    field (after [Op.shared_ptr 7 100, Op.weak_shared 0]).weak 0 = some 100 ∧
    (∃ s', WeakPtr.lock 0 (after [Op.shared_ptr 7 100, Op.weak_shared 0]) = some s' ∧
      s'.weak = (after [Op.shared_ptr 7 100, Op.weak_shared 0]).weak ∧
      s'.log = (after [Op.shared_ptr 7 100, Op.weak_shared 0]).log ∧
      (SharedPTR.toBool (after [Op.shared_ptr 7 100, Op.weak_shared 0]).shared.length s'
          = some true ↔
        ((100 : Nat) ≠ 0 ∧ ∃ cb, (after [Op.shared_ptr 7 100, Op.weak_shared 0]).heap 100
          = some cb ∧ 0 < cb.shared_count))) :=
  ⟨reachable_after _ (by decide), by decide,
    (C4_lock_promotes_iff_alive _ (reachable_after _ (by decide)) 0 100
      (by decide)).imp (fun _ hs => ⟨hs.1, hs.2.1, hs.2.2.1, hs.2.2.2.1⟩)⟩

theorem release_total {s : Sys} (hI : Inv s) {i c : Nat} (hf : field s.shared i = some c) :
    ∃ s1, SharedPTR.release i s = some s1 := by
  by_cases hc : c = 0
  · exact ⟨s, by simp [SharedPTR.release, hf, hc]⟩
  · obtain ⟨cb, hcb, _⟩ := shared_attached_block hI hf hc
    unfold SharedPTR.release
    simp only [hf, hc, hcb, if_false]
    split
    · split <;> exact ⟨_, rfl⟩
    · exact ⟨_, rfl⟩

/-- C5: in every reachable state, for every live `WeakPtr`, `expired()` returns true
exactly when the handle is empty or no `SharedPTR` is attached to its block, and
`use_count()` returns the number of `SharedPTR` objects attached to its block (0 for
an empty handle). In particular, once the destructor or `reset()` of the last
`SharedPTR` of a block has run, a `WeakPtr` attached to the block reports
`expired() = true` and `use_count() = 0`. -/
theorem C5_expired_and_use_count (s : Sys) (h : Reachable s) (w c : Nat)
    (hf : field s.weak w = some c) :
    WeakPtr.expired w s = some (decide (c = 0 ∨ attached s.shared c = 0)) ∧
    WeakPtr.use_count w s = some (if c = 0 then 0 else attached s.shared c) ∧
    (∀ i a, c ≠ 0 → field s.shared i = some c → attached s.shared c = 1 →
      (∃ s', SharedPTR.dtor i s = some s' ∧ field s'.weak w = some c ∧
        WeakPtr.expired w s' = some true ∧ WeakPtr.use_count w s' = some 0) ∧
      (∃ s', SharedPTR.reset i 0 a s = some s' ∧ field s'.weak w = some c ∧
        WeakPtr.expired w s' = some true ∧ WeakPtr.use_count w s' = some 0)) := by
  have hI := reachable_inv h
  refine ⟨?_, ?_, ?_⟩
  · by_cases hc : c = 0
    · simp [WeakPtr.expired, hf, hc]
    · obtain ⟨cb, hcb, _⟩ := weak_attached_block hI hf hc
      have hB := hI.blocks c
      simp only [BlockOk, hcb] at hB
      simp only [WeakPtr.expired, hf, hc, hcb, hB.2.1, if_false, Option.map_some', false_or]
      by_cases h0 : attached s.shared c = 0 <;> simp [h0]
  · by_cases hc : c = 0
    · simp [WeakPtr.use_count, hf, hc]
    · obtain ⟨cb, hcb, _⟩ := weak_attached_block hI hf hc
      have hB := hI.blocks c
      simp only [BlockOk, hcb] at hB
      simp [WeakPtr.use_count, hf, hc, hcb, hB.2.1]
  · intro i a hc hfi hone
    obtain ⟨cb, hcb, hcnt, _⟩ := shared_attached_block hI hfi hc
    obtain ⟨cbw, hcbw, hwc, hwpos, _⟩ := weak_attached_block hI hf hc
    rw [hcb] at hcbw
    cases Option.some.inj hcbw
    obtain ⟨s1, hr⟩ := release_total hI hfi
    obtain ⟨_, _, hwk, _, _⟩ := release_tables hI hr
    have h1 : cb.shared_count = 1 := by omega
    have hheap : s1.heap c = some { cb with shared_count := 0, ptr := 0 } := by
      rcases release_block hI hr hfi hc hcb with ⟨h', _⟩ | ⟨_, _, _, hh⟩ | ⟨_, h', _⟩
      · omega
      · exact hh
      · omega
    have hfw : field s1.weak w = some c := by rw [hwk]; exact hf
    have hobs : ∀ s' : Sys, s'.weak = s1.weak → s'.heap = s1.heap →
        field s'.weak w = some c ∧ WeakPtr.expired w s' = some true ∧
          WeakPtr.use_count w s' = some 0 := by
      intro s' hw' hh'
      have hfw' : field s'.weak w = some c := by rw [hw']; exact hfw
      have hheap' : s'.heap c = some { cb with shared_count := 0, ptr := 0 } := by
        rw [hh']; exact hheap
      exact ⟨hfw', by simp [WeakPtr.expired, hfw', hc, hheap'],
        by simp [WeakPtr.use_count, hfw', hc, hheap']⟩
    constructor
    · exact ⟨{ s1 with shared := s1.shared.set i none }, by simp [SharedPTR.dtor, hr],
        hobs _ rfl rfl⟩
    · exact ⟨s1, by simp [SharedPTR.reset, hr], hobs _ rfl rfl⟩

/-- C5 for a `WeakPtr` that watches a block whose only `SharedPTR` has been destroyed. -/
theorem C5_expired_and_use_count_witness :
    Reachable (after [Op.shared_ptr 7 100, Op.weak_shared 0, Op.shared_dtor 0]) ∧
    field (after [Op.shared_ptr 7 100, Op.weak_shared 0, Op.shared_dtor 0]).weak 0 = some 100 ∧
    WeakPtr.expired 0 (after [Op.shared_ptr 7 100, Op.weak_shared 0, Op.shared_dtor 0])
      = some (decide ((100 : Nat) = 0 ∨
          attached (after [Op.shared_ptr 7 100, Op.weak_shared 0, Op.shared_dtor 0]).shared 100
            = 0)) ∧
    WeakPtr.use_count 0 (after [Op.shared_ptr 7 100, Op.weak_shared 0, Op.shared_dtor 0])
      = some (if (100 : Nat) = 0 then 0 else
          attached (after [Op.shared_ptr 7 100, Op.weak_shared 0, Op.shared_dtor 0]).shared 100) :=
  ⟨reachable_after _ (by decide), by decide,
    (C5_expired_and_use_count _ (reachable_after _ (by decide)) 0 100 (by decide)).1,
    (C5_expired_and_use_count _ (reachable_after _ (by decide)) 0 100 (by decide)).2.1⟩

/-- The copy constructor on a handle attached to a block. -/
theorem ctor_copy_attached {s : Sys} (hI : Inv s) {p c : Nat}
    (hf : field s.shared p = some c) (hc : c ≠ 0)
    (hb : live s.shared + live s.weak + 1 < SIZE_MOD) :
    ∃ cb, s.heap c = some cb ∧ 0 < cb.shared_count ∧
      SharedPTR.ctor_copy p s
        = some ((s.newShared c).store c { cb with shared_count := cb.shared_count + 1 }) := by
  obtain ⟨cb, hcb, hcnt, hpos, _⟩ := shared_attached_block hI hf hc
  have hle := attached_le_live s.shared c
  have hinc : incr cb.shared_count = cb.shared_count + 1 := incr_eq (by omega)
  exact ⟨cb, hcb, hpos, by
    simp [SharedPTR.ctor_copy, hf, hc, Sys.incShared, Sys.newShared, hcb, hinc]⟩

/-- C6: in a reachable state with room for one more handle object, copy-constructing
from a non-empty `SharedPTR` with `use_count() = n` returns and makes `use_count()` of
the source and of the copy `n + 1`; destroying the copy right afterwards brings
`use_count()` of the source back to `n`, logs neither a call of the deleter nor a
deallocation, and leaves every control block as it was before the copy.
Copy-constructing from an empty `SharedPTR` gives an empty `SharedPTR`. -/
theorem C6_copy_then_destroy_restores (s : Sys) (h : Reachable s) (p c : Nat)
    (hf : field s.shared p = some c) (hb : live s.shared + live s.weak + 1 < SIZE_MOD) :
    (c ≠ 0 → ∀ n, SharedPTR.use_count p s = some n →
      ∃ s1, SharedPTR.ctor_copy p s = some s1 ∧
        SharedPTR.use_count p s1 = some (n + 1) ∧
        SharedPTR.use_count s.shared.length s1 = some (n + 1) ∧
        field s1.shared s.shared.length = some c ∧
        ∃ s2, SharedPTR.dtor s.shared.length s1 = some s2 ∧
          SharedPTR.use_count p s2 = some n ∧ s2.log = s.log ∧
          (∀ x, s2.heap x = s.heap x) ∧ s2.weak = s.weak) ∧
    (c = 0 →
      ∃ s1, SharedPTR.ctor_copy p s = some s1 ∧
        field s1.shared s.shared.length = some 0 ∧
        SharedPTR.get s.shared.length s1 = some 0 ∧
        SharedPTR.use_count s.shared.length s1 = some 0 ∧
        s1.heap = s.heap ∧ s1.log = s.log ∧ s1.weak = s.weak) := by
  have hI := reachable_inv h
  constructor
  · intro hc n hn
    obtain ⟨cb, hcb, hpos, hcopy⟩ := ctor_copy_attached hI hf hc hb
    rw [shared_use_count_attached hf hc hcb] at hn
    cases Option.some.inj hn
    let s1 : Sys := (s.newShared c).store c { cb with shared_count := cb.shared_count + 1 }
    have hstep : step (Op.shared_copy p) s = some s1 := hcopy
    have hlive : live s1.shared + live s1.weak < SIZE_MOD := by
      show live (s.shared ++ [some c]) + live s.weak < SIZE_MOD
      rw [live_push]; omega
    have hI1 : Inv s1 := step_inv hI hstep hlive
    have hcb1 : s1.heap c = some { cb with shared_count := cb.shared_count + 1 } := by
      simp [s1, Sys.store]
    have hfp : field s1.shared p = some c := field_push_old hf _
    have hfn : field s1.shared s.shared.length = some c := field_push_new _ _
    have hne : p ≠ s.shared.length := Nat.ne_of_lt (field_lt hf)
    obtain ⟨s1', hr⟩ := release_total hI1 hfn
    obtain ⟨_, hother, hwk, _, _⟩ := release_tables hI1 hr
    have hblock := release_block hI1 hr hfn hc hcb1
    have hframe := release_frame hI1 hr hfn
    have hres : s1'.log = s1.log ∧ s1'.heap c = some cb := by
      rcases hblock with ⟨_, hl, hh⟩ | ⟨h1, _⟩ | ⟨h1, _⟩
      · exact ⟨hl, by simpa using hh⟩
      · simp at h1; omega
      · simp at h1; omega
    refine ⟨s1, hcopy, shared_use_count_attached hfp hc hcb1,
      shared_use_count_attached hfn hc hcb1, hfn,
      { s1' with shared := s1'.shared.set s.shared.length none },
      by simp [SharedPTR.dtor, hr], ?_, hres.1, ?_, hwk⟩
    · have hfp' : field (s1'.shared.set s.shared.length none) p = some c := by
        rw [field_set_ne _ (Ne.symm hne), hother p hne]; exact hfp
      exact shared_use_count_attached (s := { s1' with shared := _ }) hfp' hc hres.2
    · intro x
      by_cases hx : x = c
      · subst hx; show s1'.heap x = s.heap x; rw [hres.2, hcb]
      · show s1'.heap x = s.heap x
        rw [hframe x hx]
        simp [s1, Sys.store, Sys.newShared, hx]
  · intro hc
    subst hc
    have hfn : field (s.newShared 0).shared s.shared.length = some 0 := field_push_new _ _
    obtain ⟨hg, hu, _⟩ := shared_empty_observers hfn
    exact ⟨s.newShared 0, by simp [SharedPTR.ctor_copy, hf], hfn, hg, hu, rfl, rfl, rfl⟩

/-- C6 for the only `SharedPTR` of a block (the scenario of test `CopyIncreasesCount`). -/
theorem C6_copy_then_destroy_restores_witness :
    Reachable (after [Op.shared_ptr 5 100]) ∧
    field (after [Op.shared_ptr 5 100]).shared 0 = some 100 ∧
    live (after [Op.shared_ptr 5 100]).shared + live (after [Op.shared_ptr 5 100]).weak + 1
      < SIZE_MOD ∧
    (∃ s1, SharedPTR.ctor_copy 0 (after [Op.shared_ptr 5 100]) = some s1 ∧
        SharedPTR.use_count 0 s1 = some (1 + 1) ∧
        SharedPTR.use_count (after [Op.shared_ptr 5 100]).shared.length s1 = some (1 + 1) ∧
        field s1.shared (after [Op.shared_ptr 5 100]).shared.length = some 100 ∧
        ∃ s2, SharedPTR.dtor (after [Op.shared_ptr 5 100]).shared.length s1 = some s2 ∧
          SharedPTR.use_count 0 s2 = some 1 ∧ s2.log = (after [Op.shared_ptr 5 100]).log ∧
          (∀ x, s2.heap x = (after [Op.shared_ptr 5 100]).heap x) ∧
          s2.weak = (after [Op.shared_ptr 5 100]).weak) :=
  ⟨reachable_after _ (by decide), by decide, by decide,
    (C6_copy_then_destroy_restores _ (reachable_after _ (by decide)) 0 100 (by decide)
      (by decide)).1 (by decide) 1 (by decide)⟩

/-- C7: move construction of a `SharedPTR` from a live `SharedPTR`, and of a `WeakPtr`
from a live `WeakPtr`, returns, leaves every control block (so every counter), the
log and the handles of the other kind unchanged, attaches the new handle to the block
of the source, so that its `use_count()` is the one of the source before the move,
and leaves the source empty: `use_count()` 0, and `get()` null for a `SharedPTR`. -/
theorem C7_move_construction (s : Sys) :
    (∀ j c, field s.shared j = some c →
      ∃ s', SharedPTR.ctor_move j s = some s' ∧ s'.heap = s.heap ∧ s'.log = s.log ∧
      s'.weak = s.weak ∧ field s'.shared s.shared.length = some c ∧
      field s'.shared j = some 0 ∧
      SharedPTR.use_count s.shared.length s' = SharedPTR.use_count j s ∧
      SharedPTR.get s.shared.length s' = SharedPTR.get j s ∧
      SharedPTR.use_count j s' = some 0 ∧ SharedPTR.get j s' = some 0) ∧
    (∀ k d, field s.weak k = some d →
      ∃ s', WeakPtr.ctor_move k s = some s' ∧ s'.heap = s.heap ∧ s'.log = s.log ∧
      s'.shared = s.shared ∧ field s'.weak s.weak.length = some d ∧
      field s'.weak k = some 0 ∧
      WeakPtr.use_count s.weak.length s' = WeakPtr.use_count k s ∧
      WeakPtr.use_count k s' = some 0 ∧ WeakPtr.expired k s' = some true) := by
  constructor
  · intro j c hj
    have hne : s.shared.length ≠ j := Ne.symm (Nat.ne_of_lt (field_lt hj))
    have hold : field (s.shared ++ [some c]) j = some c := field_push_old hj _
    have hnew : field ((s.shared ++ [some c]).set j (some 0)) s.shared.length = some c := by
      rw [field_set_ne _ (Ne.symm hne)]; exact field_push_new _ _
    have hsrc : field ((s.shared ++ [some c]).set j (some 0)) j = some 0 :=
      field_set_self hold 0
    refine ⟨(s.newShared c).setShared j 0, by simp [SharedPTR.ctor_move, hj], rfl, rfl, rfl,
      hnew, hsrc, ?_, ?_, ?_, ?_⟩
    · simp only [SharedPTR.use_count, Sys.setShared, Sys.newShared, hnew, hj]
    · simp only [SharedPTR.get, Sys.setShared, Sys.newShared, hnew, hj]
    · simp [SharedPTR.use_count, Sys.setShared, Sys.newShared, hsrc]
    · simp [SharedPTR.get, Sys.setShared, Sys.newShared, hsrc]
  · intro k d hk
    have hne : s.weak.length ≠ k := Ne.symm (Nat.ne_of_lt (field_lt hk))
    have hold : field (s.weak ++ [some d]) k = some d := field_push_old hk _
    have hnew : field ((s.weak ++ [some d]).set k (some 0)) s.weak.length = some d := by
      rw [field_set_ne _ (Ne.symm hne)]; exact field_push_new _ _
    have hsrc : field ((s.weak ++ [some d]).set k (some 0)) k = some 0 :=
      field_set_self hold 0
    refine ⟨(s.newWeak d).setWeak k 0, by simp [WeakPtr.ctor_move, hk], rfl, rfl, rfl,
      hnew, hsrc, ?_, ?_, ?_⟩
    · simp only [WeakPtr.use_count, Sys.setWeak, Sys.newWeak, hnew, hk]
    · simp [WeakPtr.use_count, Sys.setWeak, Sys.newWeak, hsrc]
    · simp [WeakPtr.expired, Sys.setWeak, Sys.newWeak, hsrc]

/-- C7 for the only `SharedPTR` and the only `WeakPtr` of a block (the scenario of test
`MoveConstructorTransfersOwnership`). -/
theorem C7_move_construction_witness :
    field (after [Op.shared_ptr 10 100, Op.weak_shared 0]).shared 0 = some 100 ∧
    field (after [Op.shared_ptr 10 100, Op.weak_shared 0]).weak 0 = some 100 ∧
    (∃ s', SharedPTR.ctor_move 0 (after [Op.shared_ptr 10 100, Op.weak_shared 0]) = some s' ∧
      s'.heap = (after [Op.shared_ptr 10 100, Op.weak_shared 0]).heap ∧
      SharedPTR.use_count 1 s' = some 1 ∧ SharedPTR.use_count 0 s' = some 0 ∧
      SharedPTR.get 0 s' = some 0) :=
  ⟨by decide, by decide,
    ((C7_move_construction (after [Op.shared_ptr 10 100, Op.weak_shared 0])).1 0 100
      (by decide)).imp
      (fun _ hs => ⟨hs.1, hs.2.1, hs.2.2.2.2.2.2.1.trans (by decide), hs.2.2.2.2.2.2.2.2.1,
        hs.2.2.2.2.2.2.2.2.2⟩)⟩

/-- C8: copy-assigning a live `SharedPTR` to itself, move-assigning it to itself, and
copy-assigning a live `WeakPtr` to itself each return and leave the whole system as it
was: every member `control_block`, every control block with its counters and object
pointer, and the log, so that neither the deleter nor a deallocation runs. -/
theorem C8_self_assignment_is_noop (s : Sys) :
    (∀ p c, field s.shared p = some c →
      SharedPTR.assign_copy p p s = some s ∧ SharedPTR.assign_move p p s = some s) ∧
    (∀ w d, field s.weak w = some d → WeakPtr.assign_copy w w s = some s) := by
  refine ⟨fun p c hp => ⟨?_, ?_⟩, fun w d hw => ?_⟩
  · simp [SharedPTR.assign_copy, hp]
  · simp [SharedPTR.assign_move, hp]
  · simp [WeakPtr.assign_copy, hw]

/-- C8 for the only `SharedPTR` and the only `WeakPtr` of a block. -/
theorem C8_self_assignment_is_noop_witness :
    field (after [Op.shared_ptr 7 100, Op.weak_shared 0]).shared 0 = some 100 ∧
    field (after [Op.shared_ptr 7 100, Op.weak_shared 0]).weak 0 = some 100 ∧
    (SharedPTR.assign_copy 0 0 (after [Op.shared_ptr 7 100, Op.weak_shared 0])
        = some (after [Op.shared_ptr 7 100, Op.weak_shared 0]) ∧
      SharedPTR.assign_move 0 0 (after [Op.shared_ptr 7 100, Op.weak_shared 0])
        = some (after [Op.shared_ptr 7 100, Op.weak_shared 0])) ∧
    WeakPtr.assign_copy 0 0 (after [Op.shared_ptr 7 100, Op.weak_shared 0])
      = some (after [Op.shared_ptr 7 100, Op.weak_shared 0]) :=
  ⟨by decide, by decide,
    (C8_self_assignment_is_noop (after [Op.shared_ptr 7 100, Op.weak_shared 0])).1 0 100
      (by decide),
    (C8_self_assignment_is_noop (after [Op.shared_ptr 7 100, Op.weak_shared 0])).2 0 100
      (by decide)⟩

/-- C10: adopting a null pointer, with or without a deleter, creates an empty handle
(`get()` null, `use_count()` 0) and neither allocates nor logs anything. Adopting a
non-null pointer `p`, when `new` returns the unused non-null address `a`, allocates
exactly the block at `a` with strong counter 1, weak counter 0, object `p` and the
given (or the default) deleter, attaches the new handle to it, so that `get()` is `p`
and `use_count()` is 1, and leaves all other blocks and the `WeakPtr` table unchanged;
`make_shared` is the adoption, without deleter, of the new object. -/
theorem C10_adoption (s : Sys) (d a : Nat) :
    (SharedPTR.ctor_ptr 0 a s = some (s.newShared 0) ∧
      SharedPTR.ctor_ptr_del 0 d a s = some (s.newShared 0) ∧
      (s.newShared 0).heap = s.heap ∧ (s.newShared 0).log = s.log ∧
      field (s.newShared 0).shared s.shared.length = some 0 ∧
      SharedPTR.get s.shared.length (s.newShared 0) = some 0 ∧
      SharedPTR.use_count s.shared.length (s.newShared 0) = some 0) ∧
    (∀ p, p ≠ 0 → a ≠ 0 → s.heap a = none →
      (∃ s', SharedPTR.ctor_ptr_del p d a s = some s' ∧
        s'.heap a = some ⟨1, 0, p, d⟩ ∧ (∀ x, x ≠ a → s'.heap x = s.heap x) ∧
        s'.log = s.log ++ [Event.created a p d] ∧
        s'.shared = s.shared ++ [some a] ∧ s'.weak = s.weak ∧
        SharedPTR.get s.shared.length s' = some p ∧
        SharedPTR.use_count s.shared.length s' = some 1) ∧
      SharedPTR.ctor_ptr p a s = SharedPTR.ctor_ptr_del p TDeleter_default a s ∧
      make_shared p a s = SharedPTR.ctor_ptr p a s) := by
  constructor
  · have hfn : field (s.newShared 0).shared s.shared.length = some 0 := field_push_new _ _
    obtain ⟨hg, hu, _⟩ := shared_empty_observers hfn
    exact ⟨by simp [SharedPTR.ctor_ptr], by simp [SharedPTR.ctor_ptr_del], rfl, rfl, hfn, hg, hu⟩
  · intro p hp ha hfree
    refine ⟨?_, ?_, ?_⟩
    · let s' : Sys :=
        { s with heap := fun x => if x = a then some ⟨1, 0, p, d⟩ else s.heap x,
                 shared := s.shared ++ [some a],
                 log := s.log ++ [Event.created a p d] }
      have hfn : field s'.shared s.shared.length = some a := field_push_new _ _
      have hcb : s'.heap a = some ⟨1, 0, p, d⟩ := by simp [s']
      refine ⟨s', ?_, hcb, fun x hx => by simp [s', hx], rfl, rfl, rfl,
        shared_get_attached hfn ha hcb, shared_use_count_attached hfn ha hcb⟩
      simp [SharedPTR.ctor_ptr_del, hp, Sys.alloc, ha, hfree, Sys.newShared, s']
    · simp [SharedPTR.ctor_ptr, SharedPTR.ctor_ptr_del]
    · simp [make_shared, hp]

/-- C10 for the first adoption in the empty system. -/
theorem C10_adoption_witness :
    (7 : Nat) ≠ 0 ∧ (100 : Nat) ≠ 0 ∧ Sys.empty.heap 100 = none ∧
    (∃ s', SharedPTR.ctor_ptr_del 7 3 100 Sys.empty = some s' ∧
      s'.heap 100 = some ⟨1, 0, 7, 3⟩ ∧
      SharedPTR.get 0 s' = some 7 ∧ SharedPTR.use_count 0 s' = some 1) :=
  ⟨by decide, by decide, by decide,
    ((C10_adoption Sys.empty 3 100).2 7 (by decide) (by decide) (by decide)).1.imp
      (fun _ hs => ⟨hs.1, hs.2.1, hs.2.2.2.2.2.2.1, hs.2.2.2.2.2.2.2⟩)⟩

/-- C12: in every reachable state the object pointer of an allocated control block is
non-null exactly when its strong counter is positive: while the counter is positive
the pointer is the non-null pointer adopted when the block was created, and once the
counter is zero the pointer is null. -/
theorem C12_object_nonnull_iff_strong_positive (s : Sys) (h : Reachable s) (a : Nat)
    (cb : ControlBlockTuple) (hcb : s.heap a = some cb) :
    (cb.ptr ≠ 0 ↔ 0 < cb.shared_count) ∧
    (0 < cb.shared_count →
      cb.ptr ≠ 0 ∧ lifetime a s.log = [Event.created a cb.ptr cb.del]) ∧
    (cb.shared_count = 0 → cb.ptr = 0) := by
  have hB := (reachable_inv h).blocks a
  simp only [BlockOk, hcb] at hB
  obtain ⟨_, _, _, _, h1, h2⟩ := hB
  refine ⟨⟨fun hp => ?_, fun hpos => (h1 hpos).1⟩, h1, fun h0 => (h2 h0).1⟩
  by_cases h0 : cb.shared_count = 0
  · exact absurd (h2 h0).1 hp
  · omega

/-- C12 for a block with a live object and for a block whose object has been
destroyed while a `WeakPtr` keeps the block. -/
theorem C12_object_nonnull_iff_strong_positive_witness :
    (Reachable (after [Op.shared_ptr 7 100, Op.weak_shared 0]) ∧
      (after [Op.shared_ptr 7 100, Op.weak_shared 0]).heap 100 = some ⟨1, 1, 7, 0⟩ ∧
      ((7 : Nat) ≠ 0 ↔ 0 < (1 : Nat))) ∧
    (Reachable (after [Op.shared_ptr 7 100, Op.weak_shared 0, Op.shared_dtor 0]) ∧
      (after [Op.shared_ptr 7 100, Op.weak_shared 0, Op.shared_dtor 0]).heap 100
        = some ⟨0, 1, 0, 0⟩ ∧
      ((0 : Nat) ≠ 0 ↔ 0 < (0 : Nat))) :=
  ⟨⟨reachable_after _ (by decide), by decide,
      (C12_object_nonnull_iff_strong_positive
        (after [Op.shared_ptr 7 100, Op.weak_shared 0]) (reachable_after _ (by decide)) 100
        ⟨1, 1, 7, 0⟩ (by decide)).1⟩,
    ⟨reachable_after _ (by decide), by decide,
      (C12_object_nonnull_iff_strong_positive
        (after [Op.shared_ptr 7 100, Op.weak_shared 0, Op.shared_dtor 0])
        (reachable_after _ (by decide)) 100 ⟨0, 1, 0, 0⟩ (by decide)).1⟩⟩

/-- C18: in every reachable state the observers of a live `SharedPTR` return and agree:
`operator bool` is true exactly when `get()` is non-null, exactly when `use_count()`
is positive, exactly when the member `control_block` is non-null. -/
theorem C18_observers_agree (s : Sys) (h : Reachable s) (p c : Nat)
    (hf : field s.shared p = some c) :
    ∃ b g n, SharedPTR.toBool p s = some b ∧ SharedPTR.get p s = some g ∧
      SharedPTR.use_count p s = some n ∧
      (b = true ↔ g ≠ 0) ∧ (g ≠ 0 ↔ 0 < n) ∧ (0 < n ↔ c ≠ 0) := by
  have hI := reachable_inv h
  by_cases hc : c = 0
  · subst hc
    obtain ⟨hg, hu, hb⟩ := shared_empty_observers hf
    exact ⟨false, 0, 0, hb, hg, hu, by simp, by simp, by simp⟩
  · obtain ⟨cb, hcb, _, hpos, _⟩ := shared_attached_block hI hf hc
    have hB := hI.blocks c
    simp only [BlockOk, hcb] at hB
    have hp := (hB.2.2.2.2.1 hpos).1
    refine ⟨cb.ptr != 0, cb.ptr, cb.shared_count, shared_toBool_attached hf hc hcb,
      shared_get_attached hf hc hcb, shared_use_count_attached hf hc hcb, by simp, ?_, ?_⟩
    · exact ⟨fun _ => hpos, fun _ => hp⟩
    · exact ⟨fun _ => hc, fun _ => hpos⟩

/-- C18 for an attached handle and for a moved-from handle. -/
theorem C18_observers_agree_witness :
    Reachable (after [Op.shared_ptr 7 100, Op.shared_move 0]) ∧
    (field (after [Op.shared_ptr 7 100, Op.shared_move 0]).shared 1 = some 100 ∧
      ∃ b g n, SharedPTR.toBool 1 (after [Op.shared_ptr 7 100, Op.shared_move 0]) = some b ∧
        SharedPTR.get 1 (after [Op.shared_ptr 7 100, Op.shared_move 0]) = some g ∧
        SharedPTR.use_count 1 (after [Op.shared_ptr 7 100, Op.shared_move 0]) = some n ∧
        (b = true ↔ g ≠ 0) ∧ (g ≠ 0 ↔ 0 < n) ∧ (0 < n ↔ (100 : Nat) ≠ 0)) ∧
    (field (after [Op.shared_ptr 7 100, Op.shared_move 0]).shared 0 = some 0 ∧
      ∃ b g n, SharedPTR.toBool 0 (after [Op.shared_ptr 7 100, Op.shared_move 0]) = some b ∧
        SharedPTR.get 0 (after [Op.shared_ptr 7 100, Op.shared_move 0]) = some g ∧
        SharedPTR.use_count 0 (after [Op.shared_ptr 7 100, Op.shared_move 0]) = some n ∧
        (b = true ↔ g ≠ 0) ∧ (g ≠ 0 ↔ 0 < n) ∧ (0 < n ↔ (0 : Nat) ≠ 0)) :=
  ⟨reachable_after _ (by decide),
    ⟨by decide, C18_observers_agree _ (reachable_after _ (by decide)) 1 100 (by decide)⟩,
    ⟨by decide, C18_observers_agree _ (reachable_after _ (by decide)) 0 0 (by decide)⟩⟩

/-- The block a live `SharedPTR` is attached to has a weak counter that can be
incremented without wrapping. -/
theorem shared_attached_weak_room {s : Sys} (hI : Inv s) {i c : Nat}
    (hf : field s.shared i = some c) (hc : c ≠ 0) :
    ∃ cb, s.heap c = some cb ∧ 0 < cb.shared_count ∧ cb.weak_count + 1 < SIZE_MOD := by
  obtain ⟨cb, hcb, hcnt, hpos, _⟩ := shared_attached_block hI hf hc
  have hB := hI.blocks c
  simp only [BlockOk, hcb] at hB
  have h1 := attached_pos_of_field hf
  have h2 := attached_le_live s.shared c
  have h3 := attached_le_live s.weak c
  have hb := hI.bound
  exact ⟨cb, hcb, hpos, by omega⟩

/-- C16: `swap` on two `SharedPTR` objects attached to different blocks cannot be
executed, so it does not leave the first attached to the block of the second and the
second to the block of the first. -/
theorem C16_swap_does_not_exchange :
    SharedPTR.swap 0 1 (after [Op.shared_ptr 7 100, Op.shared_ptr 8 200]) = none ∧
    field (after [Op.shared_ptr 7 100, Op.shared_ptr 8 200]).shared 0 = some 100 ∧
    field (after [Op.shared_ptr 7 100, Op.shared_ptr 8 200]).shared 1 = some 200 ∧
    ¬ ∃ s', SharedPTR.swap 0 1 (after [Op.shared_ptr 7 100, Op.shared_ptr 8 200]) = some s' ∧
        field s'.shared 0 = some 200 ∧ field s'.shared 1 = some 100 := by
  refine ⟨rfl, by decide, by decide, ?_⟩
  rintro ⟨s', h, _⟩
  simp [SharedPTR.swap] at h

/-- C17: `decrement_weak_count()` on the only `WeakPtr` of a block that a `SharedPTR`
keeps alive returns with the weak counter at 0, the block still allocated, and the
member `control_block` of the handle still holding the address of the block. -/
theorem C17_decrement_keeps_block_pointer :
    (WeakPtr.decrement_weak_count 0 (after [Op.shared_ptr 7 100, Op.weak_shared 0])).map
        (fun s1 => (field s1.weak 0, s1.heap 100))
      = some (some 100, some ⟨1, 0, 7, 0⟩) ∧
    field (after [Op.shared_ptr 7 100, Op.weak_shared 0]).weak 0 = some 100 ∧
    (after [Op.shared_ptr 7 100, Op.weak_shared 0]).heap 100 = some ⟨1, 1, 7, 0⟩ := by
  refine ⟨by decide, by decide, by decide⟩

/-- A new `WeakPtr` initialised with `c` followed by `increment_weak_count()`, when
the block at `c` is allocated and its weak counter does not wrap. -/
theorem weak_ctor_result (s : Sys) (c : Nat)
    (hroom : c ≠ 0 → ∃ cb, s.heap c = some cb ∧ cb.weak_count + 1 < SIZE_MOD) :
    ∃ s', WeakPtr.increment_weak_count s.weak.length (s.newWeak c) = some s' ∧
      s'.shared = s.shared ∧ s'.log = s.log ∧ s'.weak = s.weak ++ [some c] ∧
      (c = 0 → s'.heap = s.heap ∧ WeakPtr.expired s.weak.length s' = some true ∧
        WeakPtr.use_count s.weak.length s' = some 0) ∧
      (c ≠ 0 → ∃ cb, s.heap c = some cb ∧
        s'.heap c = some { cb with weak_count := cb.weak_count + 1 } ∧
        (∀ x, x ≠ c → s'.heap x = s.heap x) ∧
        WeakPtr.use_count s.weak.length s' = some cb.shared_count ∧
        WeakPtr.expired s.weak.length s' = some (cb.shared_count == 0)) := by
  have hfn : field (s.newWeak c).weak s.weak.length = some c := field_push_new _ _
  by_cases hc : c = 0
  · subst hc
    refine ⟨s.newWeak 0, by simp [WeakPtr.increment_weak_count, hfn], rfl, rfl, rfl,
      fun _ => ⟨rfl, by simp [WeakPtr.expired, hfn], by simp [WeakPtr.use_count, hfn]⟩,
      fun h => absurd rfl h⟩
  · obtain ⟨cb, hcb, hlt⟩ := hroom hc
    have hinc : incr cb.weak_count = cb.weak_count + 1 := incr_eq hlt
    have hfn' : field ((s.newWeak c).store c
        { cb with weak_count := cb.weak_count + 1 }).weak s.weak.length = some c := hfn
    have hcb' : ((s.newWeak c).store c { cb with weak_count := cb.weak_count + 1 }).heap c
        = some { cb with weak_count := cb.weak_count + 1 } := by simp [Sys.store]
    refine ⟨(s.newWeak c).store c { cb with weak_count := cb.weak_count + 1 }, ?_, rfl, rfl,
      rfl, fun h => absurd h hc, fun _ => ⟨cb, hcb, hcb', fun x hx => ?_, ?_, ?_⟩⟩
    · have hfn2 : field (s.weak ++ [some c]) s.weak.length = some c := field_push_new _ _
      simp [WeakPtr.increment_weak_count, hfn2, hc, Sys.incWeak, Sys.newWeak, hcb, hinc]
    · simp [Sys.store, Sys.newWeak, hx]
    · simp [WeakPtr.use_count, hfn', hc, hcb']
    · simp [WeakPtr.expired, hfn', hc, hcb']

/-- C13: in a reachable state, constructing a `WeakPtr` from a live `SharedPTR`, or by
copying a live `WeakPtr` when there is room for one more handle object, returns. The
new `WeakPtr` holds the member of the source; the `SharedPTR` table and the log are
unchanged, so the deleter is not called. If the source is attached to a block, the
weak counter of that block grows by exactly 1 while its strong counter, object
pointer and deleter, and all other blocks, are unchanged; if the source is empty, no
block changes and the new `WeakPtr` has `expired() = true` and `use_count() = 0`. -/
theorem C13_weak_construction (s : Sys) (h : Reachable s) :
    (∀ j c, field s.shared j = some c →
      ∃ s', WeakPtr.ctor_shared j s = some s' ∧
        s'.shared = s.shared ∧ s'.log = s.log ∧ s'.weak = s.weak ++ [some c] ∧
        (c = 0 → s'.heap = s.heap ∧ WeakPtr.expired s.weak.length s' = some true ∧
          WeakPtr.use_count s.weak.length s' = some 0) ∧
        (c ≠ 0 → ∃ cb, s.heap c = some cb ∧
          s'.heap c = some { cb with weak_count := cb.weak_count + 1 } ∧
          (∀ x, x ≠ c → s'.heap x = s.heap x) ∧
          WeakPtr.use_count s.weak.length s' = some cb.shared_count ∧
          WeakPtr.expired s.weak.length s' = some (cb.shared_count == 0))) ∧
    (∀ k c, field s.weak k = some c → live s.shared + live s.weak + 1 < SIZE_MOD →
      ∃ s', WeakPtr.ctor_copy k s = some s' ∧
        s'.shared = s.shared ∧ s'.log = s.log ∧ s'.weak = s.weak ++ [some c] ∧
        (c = 0 → s'.heap = s.heap ∧ WeakPtr.expired s.weak.length s' = some true ∧
          WeakPtr.use_count s.weak.length s' = some 0) ∧
        (c ≠ 0 → ∃ cb, s.heap c = some cb ∧
          s'.heap c = some { cb with weak_count := cb.weak_count + 1 } ∧
          (∀ x, x ≠ c → s'.heap x = s.heap x) ∧
          WeakPtr.use_count s.weak.length s' = some cb.shared_count ∧
          WeakPtr.expired s.weak.length s' = some (cb.shared_count == 0))) := by
  have hI := reachable_inv h
  constructor
  · intro j c hf
    have hroom : c ≠ 0 → ∃ cb, s.heap c = some cb ∧ cb.weak_count + 1 < SIZE_MOD := by
      intro hc
      obtain ⟨cb, hcb, _, hlt⟩ := shared_attached_weak_room hI hf hc
      exact ⟨cb, hcb, hlt⟩
    have := weak_ctor_result s c hroom
    simpa [WeakPtr.ctor_shared, hf] using this
  · intro k c hf hb
    have hroom : c ≠ 0 → ∃ cb, s.heap c = some cb ∧ cb.weak_count + 1 < SIZE_MOD := by
      intro hc
      obtain ⟨cb, hcb, hcnt, _⟩ := weak_attached_block hI hf hc
      have := attached_le_live s.weak c
      exact ⟨cb, hcb, by omega⟩
    have := weak_ctor_result s c hroom
    simpa [WeakPtr.ctor_copy, hf] using this

/-- C13 for the `SharedPTR` and the `WeakPtr` of one block (the scenario of test
`ManyWeakPtrsTrackCorrectly`). -/
theorem C13_weak_construction_witness :
    Reachable (after [Op.shared_ptr 10 100, Op.weak_shared 0]) ∧
    field (after [Op.shared_ptr 10 100, Op.weak_shared 0]).shared 0 = some 100 ∧
    field (after [Op.shared_ptr 10 100, Op.weak_shared 0]).weak 0 = some 100 ∧
    live (after [Op.shared_ptr 10 100, Op.weak_shared 0]).shared
      + live (after [Op.shared_ptr 10 100, Op.weak_shared 0]).weak + 1 < SIZE_MOD ∧
    (∃ s', WeakPtr.ctor_shared 0 (after [Op.shared_ptr 10 100, Op.weak_shared 0]) = some s' ∧
      s'.shared = (after [Op.shared_ptr 10 100, Op.weak_shared 0]).shared ∧
      s'.log = (after [Op.shared_ptr 10 100, Op.weak_shared 0]).log ∧
      s'.weak = (after [Op.shared_ptr 10 100, Op.weak_shared 0]).weak ++ [some 100]) ∧
    (∃ s', WeakPtr.ctor_copy 0 (after [Op.shared_ptr 10 100, Op.weak_shared 0]) = some s' ∧
      s'.shared = (after [Op.shared_ptr 10 100, Op.weak_shared 0]).shared ∧
      s'.log = (after [Op.shared_ptr 10 100, Op.weak_shared 0]).log ∧
      s'.weak = (after [Op.shared_ptr 10 100, Op.weak_shared 0]).weak ++ [some 100]) :=
  ⟨reachable_after _ (by decide), by decide, by decide, by decide,
    ((C13_weak_construction _ (reachable_after _ (by decide))).1 0 100 (by decide)).imp
      (fun _ hs => ⟨hs.1, hs.2.1, hs.2.2.1, hs.2.2.2.1⟩),
    ((C13_weak_construction _ (reachable_after _ (by decide))).2 0 100 (by decide)
      (by decide)).imp
      (fun _ hs => ⟨hs.1, hs.2.1, hs.2.2.1, hs.2.2.2.1⟩)⟩

theorem attached_add_null_le_live (hs : List (Option Nat)) {c : Nat} (hc : c ≠ 0) :
    attached hs c + attached hs 0 ≤ live hs := by
  induction hs with
  | nil => simp [attached, live]
  | cons x xs ih =>
    simp only [attached, live, List.count_cons, List.countP_cons] at ih ⊢
    cases x with
    | none => simpa using ih
    | some v =>
      by_cases h1 : v = c
      · subst h1
        simp [hc]
        omega
      · by_cases h2 : v = 0
        · subst h2
          simp [Ne.symm hc]
          omega
        · simp [h1, h2]
          omega

/-- The counters and members that `decrement_weak_count` does not touch. -/
theorem decrement_strong {s s1 : Sys} {i : Nat} (hI : Inv s)
    (h : WeakPtr.decrement_weak_count i s = some s1) :
    ∀ x cb1, s1.heap x = some cb1 →
      ∃ cb, s.heap x = some cb ∧ cb.shared_count = cb1.shared_count ∧ cb.ptr = cb1.ptr ∧
        cb.del = cb1.del := by
  intro x cb1 hx
  rcases decrement_cases hI h with ⟨_, rfl⟩ | ⟨c, cb, hc0, hf, hcb, hpos, hcase⟩
  · exact ⟨cb1, hx, rfl, rfl, rfl⟩
  · rcases hcase with ⟨_, _, rfl⟩ | ⟨_, rfl⟩
    · by_cases hxc : x = c
      · simp [Sys.setWeak, Sys.free, Sys.store, hxc] at hx
      · simp [Sys.setWeak, Sys.free, Sys.store, hxc] at hx
        exact ⟨cb1, hx, rfl, rfl, rfl⟩
    · by_cases hxc : x = c
      · subst hxc
        simp [Sys.store] at hx
        subst hx
        exact ⟨cb, hcb, rfl, rfl, rfl⟩
      · simp [Sys.store, hxc] at hx
        exact ⟨cb1, hx, rfl, rfl, rfl⟩

/-- The second half of both `WeakPtr::operator=`: the member is overwritten with the
member `c'` of the source and `increment_weak_count()` runs. -/
theorem weak_assign_tail_result {s s1 : Sys} {w c' : Nat} (hI : Inv s)
    (hr : WeakPtr.decrement_weak_count w s = some s1)
    (hsrc : c' ≠ 0 → (∃ j, field s1.shared j = some c') ∨
      (∃ v, v ≠ w ∧ field s1.weak v = some c')) :
    ∃ s', WeakPtr.increment_weak_count w (s1.setWeak w c') = some s' ∧
      field s'.weak w = some c' ∧ (∀ v, v ≠ w → field s'.weak v = field s1.weak v) ∧
      s'.shared = s1.shared ∧ s'.log = s1.log ∧
      (c' = 0 → s'.heap = s1.heap) ∧
      (c' ≠ 0 → ∃ cb1, s1.heap c' = some cb1 ∧
        s'.heap c' = some { cb1 with weak_count := cb1.weak_count + 1 } ∧
        (∀ x, x ≠ c' → s'.heap x = s1.heap x)) := by
  obtain ⟨hI0, _, ⟨c1, hf1⟩, _, _, _⟩ := decrement_inv hI hr (some 0) (Or.inr rfl)
  have hf0 : field (s1.weak.set w (some 0)) w = some 0 := field_set_self hf1 0
  have hfw : field (s1.weak.set w (some c')) w = some c' := field_set_self hf1 c'
  have hother : ∀ v, v ≠ w → field (s1.weak.set w (some c')) v = field s1.weak v :=
    fun v hv => field_set_ne _ (Ne.symm hv) _
  by_cases hc : c' = 0
  · subst hc
    exact ⟨s1.setWeak w 0, by simp [WeakPtr.increment_weak_count, Sys.setWeak, hfw], hfw,
      hother, rfl, rfl, fun _ => rfl, fun h => absurd rfl h⟩
  · have hroom : ∃ cb1, s1.heap c' = some cb1 ∧ cb1.weak_count + 1 < SIZE_MOD := by
      rcases hsrc hc with ⟨j, hj⟩ | ⟨v, hv, hfv⟩
      · obtain ⟨cb1, hcb1, _, hlt⟩ := shared_attached_weak_room hI0 (i := j) hj hc
        exact ⟨cb1, hcb1, hlt⟩
      · have hfv0 : field (s1.weak.set w (some 0)) v = some c' := by
          rw [field_set_ne _ (Ne.symm hv)]; exact hfv
        obtain ⟨cb1, hcb1, hcnt, _⟩ := weak_attached_block hI0 (i := v) hfv0 hc
        have h1 := attached_add_null_le_live (s1.weak.set w (some 0)) hc
        have h2 := attached_pos_of_field hf0
        have hb := hI0.bound
        refine ⟨cb1, hcb1, ?_⟩
        have hcnt' : cb1.weak_count = attached (s1.weak.set w (some 0)) c' := hcnt
        have hb' : live s1.shared + live (s1.weak.set w (some 0)) < SIZE_MOD := hb
        omega
    obtain ⟨cb1, hcb1, hlt⟩ := hroom
    have hinc : incr cb1.weak_count = cb1.weak_count + 1 := incr_eq hlt
    refine ⟨(s1.setWeak w c').store c' { cb1 with weak_count := cb1.weak_count + 1 }, ?_, hfw,
      hother, rfl, rfl, fun h => absurd h hc,
      fun _ => ⟨cb1, hcb1, by simp [Sys.store], fun x hx => by simp [Sys.store, Sys.setWeak, hx]⟩⟩
    simp [WeakPtr.increment_weak_count, Sys.setWeak, hfw, hc, Sys.incWeak, hcb1, hinc]

theorem decrement_total {s : Sys} (hI : Inv s) {i c : Nat} (hf : field s.weak i = some c) :
    ∃ s1, WeakPtr.decrement_weak_count i s = some s1 := by
  by_cases hc : c = 0
  · exact ⟨s, by simp [WeakPtr.decrement_weak_count, hf, hc]⟩
  · obtain ⟨cb, hcb, _⟩ := weak_attached_block hI hf hc
    unfold WeakPtr.decrement_weak_count
    simp only [hf, hc, hcb, ne_eq, not_false_eq_true, if_true]
    split <;> exact ⟨_, rfl⟩

theorem decrement_frame {s s1 : Sys} {i c : Nat} (hI : Inv s)
    (h : WeakPtr.decrement_weak_count i s = some s1) (hf : field s.weak i = some c) :
    ∀ x, x ≠ c → s1.heap x = s.heap x := by
  intro x hx
  rcases decrement_cases hI h with ⟨_, rfl⟩ | ⟨c', cb, hc0, hf', hcb, hpos, hcase⟩
  · rfl
  · rw [hf] at hf'
    cases Option.some.inj hf'
    rcases hcase with ⟨_, _, rfl⟩ | ⟨_, rfl⟩ <;> simp [Sys.setWeak, Sys.store, Sys.free, hx]

/-- Both `WeakPtr::operator=` after their guards: `decrement_weak_count()`, the store
of the member `c'` of the source, and `increment_weak_count()`. -/
theorem weak_assign_spec {s : Sys} {w c c' : Nat} (hI : Inv s)
    (hw : field s.weak w = some c)
    (hsrc : (∃ j, field s.shared j = some c') ∨ (∃ v, v ≠ w ∧ field s.weak v = some c')) :
    ∃ s1 s', WeakPtr.decrement_weak_count w s = some s1 ∧
      WeakPtr.increment_weak_count w (s1.setWeak w c') = some s' ∧
      s1.shared = s.shared ∧ (∀ v, v ≠ w → field s1.weak v = field s.weak v) ∧
      (c = 0 → s1 = s) ∧
      (c ≠ 0 → ∃ cb, s.heap c = some cb ∧ 1 ≤ cb.weak_count ∧
        (cb.weak_count = 1 ∧ cb.shared_count = 0 →
          s1.heap c = none ∧ s1.log = s.log ++ [Event.dealloc c]) ∧
        (¬ (cb.weak_count = 1 ∧ cb.shared_count = 0) →
          s1.heap c = some { cb with weak_count := cb.weak_count - 1 } ∧ s1.log = s.log)) ∧
      (∀ x, x ≠ c → s1.heap x = s.heap x) ∧
      field s'.weak w = some c' ∧ (∀ v, v ≠ w → field s'.weak v = field s.weak v) ∧
      s'.shared = s.shared ∧ s'.log = s1.log ∧
      (c' = 0 → s'.heap = s1.heap) ∧
      (c' ≠ 0 → ∃ cb1, s1.heap c' = some cb1 ∧
        s'.heap c' = some { cb1 with weak_count := cb1.weak_count + 1 } ∧
        (∀ x, x ≠ c' → s'.heap x = s1.heap x)) ∧
      policies s'.log = policies s.log ∧
      (∀ x cb', s'.heap x = some cb' →
        ∃ cb, s.heap x = some cb ∧ cb.shared_count = cb'.shared_count ∧ cb.ptr = cb'.ptr) := by
  obtain ⟨s1, hr⟩ := decrement_total hI hw
  obtain ⟨_, hsh, _, hoth, _, _⟩ := decrement_inv hI hr (some 0) (Or.inr rfl)
  have hsrc1 : c' ≠ 0 → (∃ j, field s1.shared j = some c') ∨
      (∃ v, v ≠ w ∧ field s1.weak v = some c') := by
    intro _
    rcases hsrc with ⟨j, hj⟩ | ⟨v, hv, hfv⟩
    · exact Or.inl ⟨j, by rw [hsh]; exact hj⟩
    · exact Or.inr ⟨v, hv, by rw [hoth v hv]; exact hfv⟩
  obtain ⟨s', hinc, hfw, hoth', hsh', hlog', hh0, hh1⟩ := weak_assign_tail_result hI hr hsrc1
  refine ⟨s1, s', hr, hinc, hsh, hoth, ?_, ?_, decrement_frame hI hr hw, hfw,
    fun v hv => by rw [hoth' v hv, hoth v hv], by rw [hsh', hsh], hlog', hh0, hh1,
    by rw [hlog', decrement_policies hr], ?_⟩
  · intro hc
    subst hc
    rcases decrement_cases hI hr with ⟨_, rfl⟩ | ⟨c2, _, hc2, hf2, _⟩
    · rfl
    · rw [hw] at hf2
      exact absurd (Option.some.inj hf2).symm hc2
  · intro hc
    obtain ⟨cb, hcb, _, hpos, _⟩ := weak_attached_block hI hw hc
    refine ⟨cb, hcb, hpos, fun hdel => ?_, fun hkeep => ?_⟩
    · rcases decrement_block hI hr hw hc hcb with ⟨_, _, hl, hh, _⟩ | ⟨h1, _, _⟩
      · exact ⟨hh, hl⟩
      · omega
    · rcases decrement_block hI hr hw hc hcb with ⟨h1, h0, _⟩ | ⟨_, _, hl, hh, _⟩
      · exact absurd ⟨h1, h0⟩ hkeep
      · exact ⟨hh, hl⟩
  · intro x cb' hx
    have key : ∃ cb1, s1.heap x = some cb1 ∧ cb1.shared_count = cb'.shared_count ∧
        cb1.ptr = cb'.ptr := by
      by_cases hc : c' = 0
      · rw [hh0 hc] at hx
        exact ⟨cb', hx, rfl, rfl⟩
      · obtain ⟨cb1, hcb1, hnew, hfr⟩ := hh1 hc
        by_cases hxc : x = c'
        · subst hxc
          rw [hnew] at hx
          cases Option.some.inj hx
          exact ⟨cb1, hcb1, rfl, rfl⟩
        · rw [hfr x hxc] at hx
          exact ⟨cb', hx, rfl, rfl⟩
    obtain ⟨cb1, hcb1, e1, e2⟩ := key
    obtain ⟨cb, hcb, e3, e4, _⟩ := decrement_strong hI hr x cb1 hcb1
    exact ⟨cb, hcb, e3.trans e1, e4.trans e2⟩

/-- C14: in a reachable state, the assignment to a live `WeakPtr` `w` (member `c`) from a
live `SharedPTR`, or from another live `WeakPtr`, with member `c'`, returns and is
`decrement_weak_count()` on `w` followed by the attachment to `c'`. The first step
changes nothing if `w` is empty; otherwise it decrements the weak counter of the old
block by 1 and deallocates that block exactly when its weak counter is then 0 and its
strong counter is 0; no other block changes. The second step makes `c'` the member of
`w` and, if `c'` is non-null, increments the weak counter of that block by 1; no
other block changes. No other handle changes, the calls of the deleter in the log are
the same as before, and every block allocated afterwards has the strong counter and
the object pointer it had before. -/
theorem C14_weak_assignment (s : Sys) (h : Reachable s) (w c : Nat)
    (hw : field s.weak w = some c) :
    (∀ j c', field s.shared j = some c' →
      ∃ s1 s', WeakPtr.decrement_weak_count w s = some s1 ∧
        WeakPtr.assign_shared w j s = some s' ∧
        s1.shared = s.shared ∧ (∀ u, u ≠ w → field s1.weak u = field s.weak u) ∧
        (c = 0 → s1 = s) ∧
        (c ≠ 0 → ∃ cb, s.heap c = some cb ∧ 1 ≤ cb.weak_count ∧
          (cb.weak_count = 1 ∧ cb.shared_count = 0 →
            s1.heap c = none ∧ s1.log = s.log ++ [Event.dealloc c]) ∧
          (¬ (cb.weak_count = 1 ∧ cb.shared_count = 0) →
            s1.heap c = some { cb with weak_count := cb.weak_count - 1 } ∧ s1.log = s.log)) ∧
        (∀ x, x ≠ c → s1.heap x = s.heap x) ∧
        field s'.weak w = some c' ∧ (∀ u, u ≠ w → field s'.weak u = field s.weak u) ∧
        s'.shared = s.shared ∧ s'.log = s1.log ∧
        (c' = 0 → s'.heap = s1.heap) ∧
        (c' ≠ 0 → ∃ cb1, s1.heap c' = some cb1 ∧
          s'.heap c' = some { cb1 with weak_count := cb1.weak_count + 1 } ∧
          (∀ x, x ≠ c' → s'.heap x = s1.heap x)) ∧
        policies s'.log = policies s.log ∧
        (∀ x cb', s'.heap x = some cb' →
          ∃ cb, s.heap x = some cb ∧ cb.shared_count = cb'.shared_count ∧ cb.ptr = cb'.ptr)) ∧
    (∀ v c', v ≠ w → field s.weak v = some c' →
      ∃ s1 s', WeakPtr.decrement_weak_count w s = some s1 ∧
        WeakPtr.assign_copy w v s = some s' ∧
        s1.shared = s.shared ∧ (∀ u, u ≠ w → field s1.weak u = field s.weak u) ∧
        (c = 0 → s1 = s) ∧
        (c ≠ 0 → ∃ cb, s.heap c = some cb ∧ 1 ≤ cb.weak_count ∧
          (cb.weak_count = 1 ∧ cb.shared_count = 0 →
            s1.heap c = none ∧ s1.log = s.log ++ [Event.dealloc c]) ∧
          (¬ (cb.weak_count = 1 ∧ cb.shared_count = 0) →
            s1.heap c = some { cb with weak_count := cb.weak_count - 1 } ∧ s1.log = s.log)) ∧
        (∀ x, x ≠ c → s1.heap x = s.heap x) ∧
        field s'.weak w = some c' ∧ (∀ u, u ≠ w → field s'.weak u = field s.weak u) ∧
        s'.shared = s.shared ∧ s'.log = s1.log ∧
        (c' = 0 → s'.heap = s1.heap) ∧
        (c' ≠ 0 → ∃ cb1, s1.heap c' = some cb1 ∧
          s'.heap c' = some { cb1 with weak_count := cb1.weak_count + 1 } ∧
          (∀ x, x ≠ c' → s'.heap x = s1.heap x)) ∧
        policies s'.log = policies s.log ∧
        (∀ x cb', s'.heap x = some cb' →
          ∃ cb, s.heap x = some cb ∧ cb.shared_count = cb'.shared_count ∧ cb.ptr = cb'.ptr)) := by
  have hI := reachable_inv h
  constructor
  · intro j c' hj
    obtain ⟨s1, s', hr, hinc, hsh, hrest⟩ := weak_assign_spec hI hw (Or.inl ⟨j, hj⟩)
    refine ⟨s1, s', hr, ?_, hsh, hrest⟩
    have hj1 : field s1.shared j = some c' := by rw [hsh]; exact hj
    simp [WeakPtr.assign_shared, hr, hj1, hinc]
  · intro v c' hv hfv
    obtain ⟨s1, s', hr, hinc, hsh, hoth, hrest⟩ :=
      weak_assign_spec hI hw (Or.inr ⟨v, hv, hfv⟩)
    refine ⟨s1, s', hr, ?_, hsh, hoth, hrest⟩
    have hv1 : field s1.weak v = some c' := by rw [hoth v hv]; exact hfv
    simp [WeakPtr.assign_copy, hw, hfv, Ne.symm hv, hr, hv1, hinc]

/-- C14 for an empty `WeakPtr` assigned from a `SharedPTR` (the scenario of test
`WeakPtrExpiresAfterSharedDeleted`) and for a `WeakPtr` assigned from another one. -/
theorem C14_weak_assignment_witness :
    Reachable (after [Op.weak_default, Op.shared_ptr 99 100, Op.weak_shared 0]) ∧
    field (after [Op.weak_default, Op.shared_ptr 99 100, Op.weak_shared 0]).weak 0 = some 0 ∧
    field (after [Op.weak_default, Op.shared_ptr 99 100, Op.weak_shared 0]).shared 0
      = some 100 ∧
    field (after [Op.weak_default, Op.shared_ptr 99 100, Op.weak_shared 0]).weak 1
      = some 100 ∧
    (∃ s1 s', WeakPtr.decrement_weak_count 0
          (after [Op.weak_default, Op.shared_ptr 99 100, Op.weak_shared 0]) = some s1 ∧
        WeakPtr.assign_shared 0 0
          (after [Op.weak_default, Op.shared_ptr 99 100, Op.weak_shared 0]) = some s' ∧
        field s'.weak 0 = some 100) ∧
    (∃ s1 s', WeakPtr.decrement_weak_count 0
          (after [Op.weak_default, Op.shared_ptr 99 100, Op.weak_shared 0]) = some s1 ∧
        WeakPtr.assign_copy 0 1
          (after [Op.weak_default, Op.shared_ptr 99 100, Op.weak_shared 0]) = some s' ∧
        field s'.weak 0 = some 100) :=
  ⟨reachable_after _ (by decide), by decide, by decide, by decide,
    ((C14_weak_assignment _ (reachable_after _ (by decide)) 0 0 (by decide)).1 0 100
      (by decide)).imp
      (fun _ hs1 => hs1.imp (fun _ hs => ⟨hs.1, hs.2.1, hs.2.2.2.2.2.2.2.1⟩)),
    ((C14_weak_assignment _ (reachable_after _ (by decide)) 0 0 (by decide)).2 1 100
      (by decide) (by decide)).imp
      (fun _ hs1 => hs1.imp (fun _ hs => ⟨hs.1, hs.2.1, hs.2.2.2.2.2.2.2.1⟩))⟩

/-- The handle table after `release`, in any state. -/
theorem release_raw {s s1 : Sys} {i : Nat} (h : SharedPTR.release i s = some s1) :
    i < s.shared.length ∧ s1.shared.length = s.shared.length ∧
      (∀ j, j ≠ i → field s1.shared j = field s.shared j) ∧
      (∃ c, field s1.shared i = some c) := by
  unfold SharedPTR.release at h
  split at h
  · simp at h
  · rename_i c hc
    have hlt := field_lt hc
    have key : ∀ (H : Nat → Option ControlBlockTuple) (L : List Event),
        s1 = { heap := H, shared := s.shared.set i (some 0), weak := s.weak, log := L } →
        i < s.shared.length ∧ s1.shared.length = s.shared.length ∧
          (∀ j, j ≠ i → field s1.shared j = field s.shared j) ∧
          (∃ c, field s1.shared i = some c) := by
      intro H L hs
      subst hs
      exact ⟨hlt, by simp, fun j hj => field_set_ne _ (Ne.symm hj) _, 0, field_set_self hc 0⟩
    split at h
    · simp at h
      subst h
      exact ⟨hlt, rfl, fun _ _ => rfl, c, hc⟩
    · split at h
      · simp at h
      · simp only at h
        split at h
        · split at h
          · simp at h
            exact key _ _ h.symm
          · simp at h
            exact key _ _ h.symm
        · simp at h
          exact key _ _ h.symm

theorem assign_copy_eq_spec (s : Sys) (i j : Nat) (hij : i ≠ j) :
    SharedPTR.assign_copy i j s = assign_copy_spec i j s := by
  unfold SharedPTR.assign_copy assign_copy_spec SharedPTR.dtor
  cases hr : SharedPTR.release i s with
  | none =>
    simp only [Option.map_none', Option.none_bind]
    split
    · simp [hij]
    · rfl
  | some s1 =>
    obtain ⟨hlt, hlen, hoth, c1, hc1⟩ := release_raw hr
    have hfi : ∃ c, field s.shared i = some c := by
      unfold SharedPTR.release at hr
      split at hr
      · simp at hr
      · rename_i c hc
        exact ⟨c, hc⟩
    obtain ⟨c, hc⟩ := hfi
    have hget : (s1.shared.set i none)[i]? = some none := by
      simp [List.getElem?_set, hlen, hlt]
    simp only [Option.map_some', Option.some_bind, SharedPTR.ctor_copy_at, hget]
    have hfj : field (s1.shared.set i none) j = field s.shared j := by
      rw [field_set_ne _ hij, hoth j (Ne.symm hij)]
    rw [hfj, hoth j (Ne.symm hij), hc]
    cases hj : field s.shared j with
    | none => simp
    | some c' => simp [hij, Sys.setShared]

theorem assign_move_eq_spec (s : Sys) (i j : Nat) (hij : i ≠ j) :
    SharedPTR.assign_move i j s = assign_move_spec i j s := by
  unfold SharedPTR.assign_move assign_move_spec SharedPTR.dtor
  cases hr : SharedPTR.release i s with
  | none =>
    simp only [Option.map_none', Option.none_bind]
    split
    · simp [hij]
    · rfl
  | some s1 =>
    obtain ⟨hlt, hlen, hoth, c1, hc1⟩ := release_raw hr
    have hfi : ∃ c, field s.shared i = some c := by
      unfold SharedPTR.release at hr
      split at hr
      · simp at hr
      · rename_i c hc
        exact ⟨c, hc⟩
    obtain ⟨c, hc⟩ := hfi
    have hget : (s1.shared.set i none)[i]? = some none := by
      simp [List.getElem?_set, hlen, hlt]
    simp only [Option.map_some', Option.some_bind, SharedPTR.ctor_move_at, hget]
    have hfj : field (s1.shared.set i none) j = field s.shared j := by
      rw [field_set_ne _ hij, hoth j (Ne.symm hij)]
    rw [hfj, hoth j (Ne.symm hij), hc]
    cases hj : field s.shared j with
    | none => simp
    | some c' => simp [hij, Sys.setShared]

theorem attached_two {hs : List (Option Nat)} {i j c : Nat} (hij : i ≠ j) (hc : c ≠ 0)
    (hi : field hs i = some c) (hj : field hs j = some c) : 2 ≤ attached hs c := by
  have h1 := attached_set hi 0 c
  have hj' : field (hs.set i (some 0)) j = some c := by rw [field_set_ne _ hij]; exact hj
  have h2 := attached_pos_of_field hj'
  simp only [if_true, if_neg (Ne.symm hc)] at h1
  omega

/-- Copy assignment between two distinct live handles of a state that satisfies the
invariant. -/
theorem assign_copy_result {s : Sys} (hI : Inv s) {i j c c' : Nat} (hij : i ≠ j)
    (hi : field s.shared i = some c) (hj : field s.shared j = some c') :
    ∃ s1, SharedPTR.release i s = some s1 ∧
      ((c' = 0 ∧ SharedPTR.assign_copy i j s = some (s1.setShared i 0)) ∨
       (c' ≠ 0 ∧ ∃ cb1, s1.heap c' = some cb1 ∧ 0 < cb1.shared_count ∧
          SharedPTR.assign_copy i j s = some ((s1.setShared i c').store c'
            { cb1 with shared_count := cb1.shared_count + 1 }))) := by
  obtain ⟨s1, hr⟩ := release_total hI hi
  have hI1 := release_inv hI hr
  obtain ⟨hf0, hoth, _, _, _⟩ := release_tables hI hr
  have hj1 : field s1.shared j = some c' := by rw [hoth j (Ne.symm hij)]; exact hj
  refine ⟨s1, hr, ?_⟩
  by_cases hc' : c' = 0
  · left
    subst hc'
    exact ⟨rfl, by simp [SharedPTR.assign_copy, hi, hj, hij, hr, hj1]⟩
  · right
    obtain ⟨cb1, hcb1, hcnt, hpos, _⟩ := shared_attached_block hI1 hj1 hc'
    have h1 := attached_add_null_le_live s1.shared hc'
    have h2 := attached_pos_of_field hf0
    have hb := hI1.bound
    have hinc : incr cb1.shared_count = cb1.shared_count + 1 := incr_eq (by omega)
    refine ⟨hc', cb1, hcb1, hpos, ?_⟩
    simp [SharedPTR.assign_copy, hi, hj, hij, hr, hj1, hc', Sys.incShared, Sys.setShared,
      hcb1, hinc]

/-- Move assignment between two distinct live handles of a state that satisfies the
invariant. -/
theorem assign_move_result {s : Sys} (hI : Inv s) {i j c c' : Nat} (hij : i ≠ j)
    (hi : field s.shared i = some c) (hj : field s.shared j = some c') :
    ∃ s1, SharedPTR.release i s = some s1 ∧
      SharedPTR.assign_move i j s = some ((s1.setShared i c').setShared j 0) := by
  obtain ⟨s1, hr⟩ := release_total hI hi
  obtain ⟨hf0, hoth, _, _, _⟩ := release_tables hI hr
  have hj1 : field s1.shared j = some c' := by rw [hoth j (Ne.symm hij)]; exact hj
  exact ⟨s1, hr, by simp [SharedPTR.assign_move, hi, hj, hij, hr, hj1]⟩

/-- C11: for two distinct handle objects, copy assignment gives the same result, as a
whole state or as a call that cannot be executed, as the destructor of the target
followed by the copy constructor run on its storage, and move assignment the same as
the destructor followed by the move constructor. In a reachable state both assignments
between live handles return; when both handles are attached to the same block, copy
assignment leaves every control block and the log as they were, so the strong
counter is unchanged and the deleter is not called, and both handles stay attached to
the block. -/
theorem C11_assignment_is_destroy_then_construct (s : Sys) (i j : Nat) (hij : i ≠ j) :
    SharedPTR.assign_copy i j s = assign_copy_spec i j s ∧
    SharedPTR.assign_move i j s = assign_move_spec i j s ∧
    (Reachable s → ∀ c c', field s.shared i = some c → field s.shared j = some c' →
      (∃ s', SharedPTR.assign_copy i j s = some s' ∧ field s'.shared i = some c' ∧
        field s'.shared j = some c') ∧
      (∃ s', SharedPTR.assign_move i j s = some s' ∧ field s'.shared i = some c' ∧
        field s'.shared j = some 0) ∧
      (c = c' → c ≠ 0 →
        ∃ s', SharedPTR.assign_copy i j s = some s' ∧ (∀ x, s'.heap x = s.heap x) ∧
          s'.log = s.log ∧ s'.weak = s.weak)) := by
  refine ⟨assign_copy_eq_spec s i j hij, assign_move_eq_spec s i j hij, ?_⟩
  intro h c c' hi hj
  have hI := reachable_inv h
  obtain ⟨s1, hr, hcopy⟩ := assign_copy_result hI hij hi hj
  obtain ⟨hf0, hoth, hwk, _, _⟩ := release_tables hI hr
  have hj1 : field s1.shared j = some c' := by rw [hoth j (Ne.symm hij)]; exact hj
  have hfi : field (s1.shared.set i (some c')) i = some c' := field_set_self hf0 c'
  have hfj : field (s1.shared.set i (some c')) j = some c' := by
    rw [field_set_ne _ hij]; exact hj1
  refine ⟨?_, ?_, ?_⟩
  · rcases hcopy with ⟨rfl, hres⟩ | ⟨hc', cb1, hcb1, hpos, hres⟩
    · exact ⟨_, hres, hfi, hfj⟩
    · exact ⟨_, hres, hfi, hfj⟩
  · obtain ⟨s1', hr', hres⟩ := assign_move_result hI hij hi hj
    rw [hr] at hr'
    cases Option.some.inj hr'
    refine ⟨_, hres, ?_, field_set_self hfj 0⟩
    show field ((s1.shared.set i (some c')).set j (some 0)) i = some c'
    rw [field_set_ne _ (Ne.symm hij)]
    exact hfi
  · intro hcc hc
    subst hcc
    obtain ⟨cb, hcb, hcnt, _, hlt⟩ := shared_attached_block hI hi hc
    have h2 := attached_two hij hc hi hj
    have hblock : s1.log = s.log ∧
        s1.heap c = some { cb with shared_count := cb.shared_count - 1 } := by
      rcases release_block hI hr hi hc hcb with ⟨_, hl, hh⟩ | ⟨h1, _⟩ | ⟨h1, _⟩
      · exact ⟨hl, hh⟩
      · omega
      · omega
    rcases hcopy with ⟨h0, _⟩ | ⟨_, cb1, hcb1, hpos, hres⟩
    · exact absurd h0 hc
    · rw [hblock.2] at hcb1
      cases Option.some.inj hcb1
      refine ⟨_, hres, fun x => ?_, hblock.1, hwk⟩
      by_cases hx : x = c
      · subst hx
        have : cb.shared_count - 1 + 1 = cb.shared_count := by omega
        simp [Sys.store, this, hcb]
      · simp only [Sys.store, Sys.setShared, if_neg hx]
        exact release_frame hI hr hi x hx

/-- C11 for two handles of one block and a third handle of another block. -/
theorem C11_assignment_is_destroy_then_construct_witness :
    (0 : Nat) ≠ 1 ∧
    Reachable (after [Op.shared_ptr 7 100, Op.shared_copy 0, Op.shared_ptr 8 200]) ∧
    field (after [Op.shared_ptr 7 100, Op.shared_copy 0, Op.shared_ptr 8 200]).shared 0
      = some 100 ∧
    field (after [Op.shared_ptr 7 100, Op.shared_copy 0, Op.shared_ptr 8 200]).shared 1
      = some 100 ∧
    SharedPTR.assign_copy 0 1 (after [Op.shared_ptr 7 100, Op.shared_copy 0, Op.shared_ptr 8 200])
      = assign_copy_spec 0 1
          (after [Op.shared_ptr 7 100, Op.shared_copy 0, Op.shared_ptr 8 200]) ∧
    (∃ s', SharedPTR.assign_copy 0 1
          (after [Op.shared_ptr 7 100, Op.shared_copy 0, Op.shared_ptr 8 200]) = some s' ∧
        (∀ x, s'.heap x
          = (after [Op.shared_ptr 7 100, Op.shared_copy 0, Op.shared_ptr 8 200]).heap x) ∧
        s'.log = (after [Op.shared_ptr 7 100, Op.shared_copy 0, Op.shared_ptr 8 200]).log ∧
        s'.weak = (after [Op.shared_ptr 7 100, Op.shared_copy 0, Op.shared_ptr 8 200]).weak) :=
  ⟨by decide, reachable_after _ (by decide), by decide, by decide,
    (C11_assignment_is_destroy_then_construct
      (after [Op.shared_ptr 7 100, Op.shared_copy 0, Op.shared_ptr 8 200]) 0 1 (by decide)).1,
    ((C11_assignment_is_destroy_then_construct
      (after [Op.shared_ptr 7 100, Op.shared_copy 0, Op.shared_ptr 8 200]) 0 1
      (by decide)).2.2 (reachable_after _ (by decide)) 100 100 (by decide) (by decide)).2.2
      rfl (by decide)⟩

/-! ## Managed objects that hold handles -/

theorem Sys.ext_heap {a b : Sys} (h1 : ∀ x, a.heap x = b.heap x) (h2 : a.shared = b.shared)
    (h3 : a.weak = b.weak) (h4 : a.log = b.log) : a = b := by
  cases a
  cases b
  simp only [Sys.mk.injEq]
  exact ⟨funext h1, h2, h3, h4⟩

theorem destroy_members_nil (rel : Nat → Sys → Outcome) (s : Sys) :
    WithMembers.destroy_members rel [] s = Outcome.done s := rfl

/-- When no managed object holds a handle, the `release()` that runs the destructors
of the members returns exactly what `SharedPTR.release` returns. -/
theorem release_without_members (M : Nat → List Member) (hM : ∀ p, M p = [])
    (fuel i : Nat) (s s1 : Sys) (h : SharedPTR.release i s = some s1) :
    WithMembers.release M (fuel + 1) i s = Outcome.done s1 := by
  unfold SharedPTR.release at h
  unfold WithMembers.release
  split at h
  · simp at h
  · rename_i c hc
    simp only [hc]
    split at h
    · rename_i hc0
      simp at h
      subst h
      simp [hc0]
    · rename_i hc0
      simp only [if_neg hc0]
      split at h
      · simp at h
      · rename_i cb hcb
        simp only at h
        split at h
        · rename_i hn
          simp only [hn, if_true, WithMembers.call_deleter, hM, destroy_members_nil,
            Sys.store, hc, if_neg hc0]
          split at h
          · rename_i hw
            have h' := Option.some.inj h
            subst h'
            simp only [hw, if_true]
            refine congrArg Outcome.done (Sys.ext_heap (fun x => ?_) rfl rfl ?_)
            · by_cases hx : x = c <;> simp [Sys.setShared, Sys.free, Sys.store, hx]
            · simp [Sys.setShared, Sys.free, Sys.store]
          · rename_i hw
            have h' := Option.some.inj h
            subst h'
            simp only [if_neg hw]
            refine congrArg Outcome.done (Sys.ext_heap (fun x => ?_) rfl rfl ?_)
            · by_cases hx : x = c <;> simp [Sys.setShared, Sys.store, hx, hn]
            · simp [Sys.setShared, Sys.store]
        · rename_i hn
          simp at h
          subst h
          simp [hn]

/-- C3: for `struct Node { WeakPtr<Node> self; }`, after `SharedPTR<Node> p(new Node);
p->self = p;` the block of `p` has strong counter 1 and weak counter 1. `release()` on
`p` takes the strong counter to 0 and calls the deleter; `~Node` runs `~WeakPtr` on
`self`, whose `decrement_weak_count()` deallocates the block; `release()` then
executes `ptr() = nullptr` on the deallocated block. So `release()`, entered with a
weak counter of 1, has its block deallocated during the call, goes on using it, and
the operation has no defined end at which the block is deallocated once. -/
theorem C3_release_uses_block_freed_by_member :
    Reachable (after [Op.weak_default, Op.shared_ptr 7 100, Op.weak_assign_shared 0 0]) ∧
    (after [Op.weak_default, Op.shared_ptr 7 100, Op.weak_assign_shared 0 0]).heap 100
      = some ⟨1, 1, 7, 0⟩ ∧
    field (after [Op.weak_default, Op.shared_ptr 7 100, Op.weak_assign_shared 0 0]).shared 0
      = some 100 ∧
    field (after [Op.weak_default, Op.shared_ptr 7 100, Op.weak_assign_shared 0 0]).weak 0
      = some 100 ∧
    (WithMembers.release node_weak_self 3 0
      (after [Op.weak_default, Op.shared_ptr 7 100, Op.weak_assign_shared 0 0])).stop
      = some (Stop.freed_block 100) ∧
    (WithMembers.release node_weak_self 3 0
      (after [Op.weak_default, Op.shared_ptr 7 100, Op.weak_assign_shared 0 0])).state.log
      = [Event.created 100 7 0, Event.policy 100 0 7, Event.dealloc 100] := by
  refine ⟨reachable_after _ (by decide), by decide, by decide, by decide, by decide, by decide⟩

/-- C9: in the same state `p` is the only `SharedPTR` of its block and the weak counter
of the block is 1, not 0. `p.reset()` calls the deleter once, on the object at 7, but
the block is deallocated all the same, by the `~WeakPtr` of the member, and `reset()`
does not return: it stops at the write `ptr() = nullptr` to the deallocated block,
with the member `control_block` of `p` still holding the address. -/
theorem C9_reset_of_sole_owner_stops :
    attached (after [Op.weak_default, Op.shared_ptr 7 100, Op.weak_assign_shared 0 0]).shared 100
      = 1 ∧
    (after [Op.weak_default, Op.shared_ptr 7 100, Op.weak_assign_shared 0 0]).heap 100
      = some ⟨1, 1, 7, 0⟩ ∧
    (WithMembers.reset node_weak_self 3 0 0 0
      (after [Op.weak_default, Op.shared_ptr 7 100, Op.weak_assign_shared 0 0])).stop
      = some (Stop.freed_block 100) ∧
    (WithMembers.reset node_weak_self 3 0 0 0
      (after [Op.weak_default, Op.shared_ptr 7 100, Op.weak_assign_shared 0 0])).state.heap 100
      = none ∧
    field (WithMembers.reset node_weak_self 3 0 0 0
      (after [Op.weak_default, Op.shared_ptr 7 100, Op.weak_assign_shared 0 0])).state.shared 0
      = some 100 ∧
    policies (WithMembers.reset node_weak_self 3 0 0 0
      (after [Op.weak_default, Op.shared_ptr 7 100, Op.weak_assign_shared 0 0])).state.log
      = [Event.policy 100 0 7] := by
  refine ⟨by decide, by decide, by decide, by decide, by decide, by decide⟩

/-- C15: in the same state, once `release()` on `p` has taken the strong counter to 0,
the block is still allocated; the call of the deleter that `release()` then makes
returns with the block deallocated, by the `~WeakPtr` that `~Node` runs: the block is
deallocated while its object is being destroyed, not after, and the `release()` that
called the deleter is still running. -/
theorem C15_block_freed_inside_deleter_call :
    ((after [Op.weak_default, Op.shared_ptr 7 100, Op.weak_assign_shared 0 0]).store 100
      ⟨0, 1, 7, 0⟩).heap 100 = some ⟨0, 1, 7, 0⟩ ∧
    (WithMembers.call_deleter (WithMembers.release node_weak_self 2) node_weak_self 100
      ⟨1, 1, 7, 0⟩
      ((after [Op.weak_default, Op.shared_ptr 7 100, Op.weak_assign_shared 0 0]).store 100
        ⟨0, 1, 7, 0⟩)).stop = none ∧
    (WithMembers.call_deleter (WithMembers.release node_weak_self 2) node_weak_self 100
      ⟨1, 1, 7, 0⟩
      ((after [Op.weak_default, Op.shared_ptr 7 100, Op.weak_assign_shared 0 0]).store 100
        ⟨0, 1, 7, 0⟩)).state.heap 100 = none ∧
    (WithMembers.call_deleter (WithMembers.release node_weak_self 2) node_weak_self 100
      ⟨1, 1, 7, 0⟩
      ((after [Op.weak_default, Op.shared_ptr 7 100, Op.weak_assign_shared 0 0]).store 100
        ⟨0, 1, 7, 0⟩)).state.log
      = [Event.created 100 7 0, Event.policy 100 0 7, Event.dealloc 100] ∧
    (WithMembers.release node_weak_self 3 0
      (after [Op.weak_default, Op.shared_ptr 7 100, Op.weak_assign_shared 0 0])).state.heap 100
      = none ∧
    (WithMembers.release node_weak_self 3 0
      (after [Op.weak_default, Op.shared_ptr 7 100, Op.weak_assign_shared 0 0])).stop
      ≠ none := by
  refine ⟨by decide, by decide, by decide, by decide, by decide, by decide⟩

/-- C19: for `struct N { SharedPTR<N> self; }`, after `N* n = new N;
n->self = SharedPTR<N>(n);` the member `self` is the only `SharedPTR` of the block,
whose strong counter is 1. `n->self.reset()` takes the counter to 0 and calls the
deleter; `~N` runs `~SharedPTR` on `self`, whose member `control_block` is still set,
and that `release()` executes `--shared_count()` on 0: the counter wraps to
`2 ^ 64 - 1`. The outer `release()` then reads the member of the destroyed handle. -/
theorem C19_nested_release_decrements_zero :
    Reachable (after [Op.shared_default, Op.shared_ptr 7 100, Op.shared_assign_move 0 1,
      Op.shared_dtor 1]) ∧
    (after [Op.shared_default, Op.shared_ptr 7 100, Op.shared_assign_move 0 1,
      Op.shared_dtor 1]).heap 100 = some ⟨1, 0, 7, 0⟩ ∧
    attached (after [Op.shared_default, Op.shared_ptr 7 100, Op.shared_assign_move 0 1,
      Op.shared_dtor 1]).shared 100 = 1 ∧
    (WithMembers.reset node_shared_self 3 0 0 0
      (after [Op.shared_default, Op.shared_ptr 7 100, Op.shared_assign_move 0 1,
        Op.shared_dtor 1])).state.heap 100 = some ⟨2 ^ 64 - 1, 0, 7, 0⟩ ∧
    (WithMembers.reset node_shared_self 3 0 0 0
      (after [Op.shared_default, Op.shared_ptr 7 100, Op.shared_assign_move 0 1,
        Op.shared_dtor 1])).stop = some Stop.destroyed_handle ∧
    decr 0 = 2 ^ 64 - 1 := by
  refine ⟨reachable_after _ (by decide), by decide, by decide, by decide, by decide, by decide⟩

end SharedPTRModel
